import Mathlib

/- Verification of the RAG core of the DEVONthink_agent repository:
   a shallow embedding of `src/rag/store.ts`, `src/rag/chunker.ts`,
   `src/rag/embedder.ts`, `src/rag/hybrid-search.ts` and
   `src/rag/index-manager.ts`, together with proofs about it.

   Modelling conventions:
   * the Float32 scalars of the vector buffer are modelled as rationals
     (real numbers are used for the cosine-similarity function, which
     takes square roots);
   * a JS string-keyed record is modelled as an insertion-ordered
     association list;
   * a `Float32Array` is modelled as a `List ℚ` together with the
     typed-array write semantics (out-of-range writes are dropped);
   * file-system reads and writes are modelled as pure data transfer. -/

namespace DtAgent

/-- Read `buf[i]`, with `0` for an out-of-range read. -/
def getE (buf : List ℚ) (i : ℕ) : ℚ := buf.getD i 0

-- ═══ store.ts: data model ═══

/-- `ChunkMeta` of `store.ts`. -/
structure ChunkMeta where
  id : String
  uuid : String
  docName : String
  database : String
  text : String
  chunkIndex : ℕ
deriving DecidableEq, Inhabited, Repr

/-- One entry of `IndexMeta.documents` in `store.ts`. -/
structure DocEntry where
  name : String
  modificationDate : String
  chunkCount : ℕ
deriving DecidableEq, Inhabited, Repr

/-- `IndexMeta` of `store.ts`; the `documents` record is modelled as an
insertion-ordered association list. -/
structure IndexMeta where
  version : ℕ
  embeddingProvider : String
  embeddingModel : String
  dimensions : ℕ
  totalChunks : ℕ
  totalDocuments : ℕ
  lastUpdated : String
  documents : List (String × DocEntry)
deriving DecidableEq, Inhabited, Repr

/-- The mutable state of `class VectorStore` in `store.ts`. -/
structure VectorStore where
  chunks : List ChunkMeta
  vectors : List ℚ
  vectorsUsed : ℕ
  meta : IndexMeta
  dimensions : ℕ
  loaded : Bool
deriving DecidableEq, Repr

/-- JS read `documents[uuid]` on the association-list model. -/
def lookupDoc : List (String × DocEntry) → String → Option DocEntry
  | [], _ => none
  | p :: rest, k => if p.1 = k then some p.2 else lookupDoc rest k

/-- JS write `documents[uuid] = entry`: replace in place if the key exists,
otherwise append (JS records keep insertion order). -/
def insertDoc : List (String × DocEntry) → String → DocEntry → List (String × DocEntry)
  | [], k, v => [(k, v)]
  | p :: rest, k, v => if p.1 = k then (k, v) :: rest else p :: insertDoc rest k v

/-- JS `delete documents[uuid]`. -/
def eraseDoc (l : List (String × DocEntry)) (k : String) : List (String × DocEntry) :=
  l.filter (fun p => decide (¬ p.1 = k))

/-- The `VectorStore` constructor: `new VectorStore(dimensions, provider?, model?)`.
`now` stands for `new Date().toISOString()`. -/
def VectorStore.new (dimensions : ℕ) (provider model : Option String) (now : String) :
    VectorStore :=
  { chunks := []
    vectors := []
    vectorsUsed := 0
    meta :=
      { version := 1
        embeddingProvider := provider.getD "unknown"
        embeddingModel := model.getD "unknown"
        dimensions := dimensions
        totalChunks := 0
        totalDocuments := 0
        lastUpdated := now
        documents := [] }
    dimensions := dimensions
    loaded := false }

/-- `VectorStore.needsReindex`: true iff the document is absent from
`meta.documents` or its stored modification date differs. -/
def VectorStore.needsReindex (s : VectorStore) (uuid modificationDate : String) : Bool :=
  match lookupDoc s.meta.documents uuid with
  | none => true
  | some doc => decide (¬ doc.modificationDate = modificationDate)

/-- The `removeIndices` set built by `removeDocument` (as a sorted list of
chunk positions whose `uuid` matches). -/
def removeIndices (s : VectorStore) (uuid : String) : List ℕ :=
  (List.range s.chunks.length).filter (fun i => decide ((s.chunks.getD i default).uuid = uuid))

/-- The `keepIndices` list built by `removeDocument` (positions of surviving
chunks, in order). -/
def keepIndices (s : VectorStore) (uuid : String) : List ℕ :=
  (List.range s.chunks.length).filter (fun i => decide (¬ (s.chunks.getD i default).uuid = uuid))

/-- The inner `for (let d = 0; d < dims; d++)` copy of `removeDocument`:
copy `n` scalars from `srcPos` to `dstPos`, reading from the buffer as it is
being overwritten, exactly as the imperative loop does. -/
def copyRange (srcPos dstPos n : ℕ) (buf : List ℚ) : List ℚ :=
  (List.range n).foldl (fun b d => b.set (dstPos + d) (getE b (srcPos + d))) buf

/-- The `for (const oldIdx of keepIndices)` compaction loop of
`removeDocument`, with its running `writePos`; `if (src !== dst)` skips the
copy. -/
def compactGo (dims : ℕ) : ℕ → List ℕ → List ℚ → List ℚ
  | _, [], buf => buf
  | writePos, oldIdx :: rest, buf =>
    compactGo dims (writePos + 1) rest
      (if oldIdx = writePos then buf else copyRange (oldIdx * dims) (writePos * dims) dims buf)

/-- `VectorStore.removeDocument`: delete all chunks of `uuid`, compact the
vector buffer in place, and drop the document-tracking entry.  A document
with no stored chunks triggers the early `if (removeIndices.size === 0)
return`. -/
def VectorStore.removeDocument (s : VectorStore) (uuid : String) : VectorStore :=
  if (removeIndices s uuid).length = 0 then s
  else
    { s with
      chunks := s.chunks.filter (fun c => decide (¬ c.uuid = uuid))
      vectors := compactGo s.dimensions 0 (keepIndices s uuid) s.vectors
      vectorsUsed := (keepIndices s uuid).length * s.dimensions
      meta := { s.meta with documents := eraseDoc s.meta.documents uuid } }

/-- Write `n` scalars `f 0, …, f (n-1)` at positions `pos, …, pos+n-1`
(the inner write loop of `upsertDocument`; a typed-array write out of range
is dropped, which is what `List.set` does). -/
def writeRange (f : ℕ → ℚ) (pos n : ℕ) (buf : List ℚ) : List ℚ :=
  (List.range n).foldl (fun b d => b.set (pos + d) (f d)) buf

/-- The `for (let i = 0; i < newVectors.length; i++)` write loop of
`upsertDocument`. -/
def writeVecsGo (dims used : ℕ) : ℕ → List (List ℚ) → List ℚ → List ℚ
  | _, [], buf => buf
  | i, v :: rest, buf =>
    writeVecsGo dims used (i + 1) rest (writeRange (fun d => getE v d) (used + i * dims) dims buf)

/-- The amortized-growth step of `upsertDocument`: when the needed length
exceeds the capacity, allocate `max(needed, 2·capacity, 4096)` zeroed
scalars and copy the used prefix over. -/
def grownBuffer (s1 : VectorStore) (addLength : ℕ) : List ℚ :=
  if s1.vectors.length < s1.vectorsUsed + addLength then
    s1.vectors.take s1.vectorsUsed ++
      List.replicate
        (max (s1.vectorsUsed + addLength) (max (s1.vectors.length * 2) 4096) - s1.vectorsUsed)
        (0 : ℚ)
  else s1.vectors

/-- `VectorStore.upsertDocument`: remove any existing chunks of the document,
then append the new chunks, write the new vectors after the used region
(growing the buffer if needed), and update the document-tracking entry. -/
def VectorStore.upsertDocument (s : VectorStore) (uuid name modificationDate : String)
    (newChunks : List ChunkMeta) (newVectors : List (List ℚ)) : VectorStore :=
  let s1 := s.removeDocument uuid
  let addLength := newVectors.length * s1.dimensions
  { s1 with
    chunks := s1.chunks ++ newChunks
    vectors := writeVecsGo s1.dimensions s1.vectorsUsed 0 newVectors (grownBuffer s1 addLength)
    vectorsUsed := s1.vectorsUsed + addLength
    meta :=
      { s1.meta with
        documents :=
          insertDoc s1.meta.documents uuid ⟨name, modificationDate, newChunks.length⟩ } }

/-- The three artifacts written by `save()`. -/
structure SavedFiles where
  vectorsFile : List ℚ
  chunksFile : List ChunkMeta
  metaFile : IndexMeta
deriving DecidableEq, Repr

/-- `VectorStore.save`: update the meta counters, then write the used prefix
of the vector buffer, the chunk list, and the metadata. -/
def VectorStore.save (s : VectorStore) (now : String) : SavedFiles :=
  { vectorsFile := s.vectors.take s.vectorsUsed
    chunksFile := s.chunks
    metaFile :=
      { s.meta with
        totalChunks := s.chunks.length
        totalDocuments := s.meta.documents.length
        lastUpdated := now
        dimensions := s.dimensions } }

/-- `VectorStore.load` on its success path (all three artifacts present and
parseable): read the metadata, take its dimensions, read the chunk list and
the raw floats, and mark the used length as the whole file. -/
def VectorStore.loadFrom (s : VectorStore) (files : SavedFiles) : VectorStore :=
  { s with
    meta := files.metaFile
    dimensions := files.metaFile.dimensions
    chunks := files.chunksFile
    vectors := files.vectorsFile
    vectorsUsed := files.vectorsFile.length
    loaded := true }

/-- An example store used to instantiate the theorems on concrete data. -/
def storeEx : VectorStore :=
  { chunks := [⟨"u1#0", "u1", "Doc One", "db", "hello world", 0⟩]
    vectors := [1, 2, 0, 0]
    vectorsUsed := 2
    meta :=
      { version := 1
        embeddingProvider := "gemini"
        embeddingModel := "gemini-embedding-001"
        dimensions := 2
        totalChunks := 1
        totalDocuments := 1
        lastUpdated := "t0"
        documents := [("u1", ⟨"Doc One", "2026-01-01", 1⟩)] }
    dimensions := 2
    loaded := false }

/-- Ghost effect of `removeDocument` on the per-chunk vector association:
the pairs of the document are dropped. -/
def ghostRemove (l : List (ChunkMeta × List ℚ)) (uuid : String) :
    List (ChunkMeta × List ℚ) :=
  l.filter (fun p => decide (¬ p.1.uuid = uuid))

/-- Ghost effect of `upsertDocument`: the pairs of the document are replaced
by the new `(chunk, vector)` pairs, appended at the end. -/
def ghostUpsert (l : List (ChunkMeta × List ℚ)) (uuid : String)
    (cs : List ChunkMeta) (vs : List (List ℚ)) : List (ChunkMeta × List ℚ) :=
  ghostRemove l uuid ++ cs.zip vs

/-- States reachable from a fresh store by well-formed `upsertDocument` and
`removeDocument` calls (every upsert supplies exactly one vector per chunk,
and every vector has length `dimensions`), together with the ghost
association of each chunk to the vector supplied with it. -/
inductive Reaches : VectorStore → List (ChunkMeta × List ℚ) → Prop
  | init (dims : ℕ) (p m : Option String) (now : String) :
      Reaches (VectorStore.new dims p m now) []
  | upsert {s : VectorStore} {l : List (ChunkMeta × List ℚ)}
      (uuid name modificationDate : String)
      (cs : List ChunkMeta) (vs : List (List ℚ))
      (h : Reaches s l) (hlen : cs.length = vs.length)
      (hdim : ∀ v ∈ vs, v.length = s.dimensions) :
      Reaches (s.upsertDocument uuid name modificationDate cs vs) (ghostUpsert l uuid cs vs)
  | remove {s : VectorStore} {l : List (ChunkMeta × List ℚ)} (uuid : String)
      (h : Reaches s l) : Reaches (s.removeDocument uuid) (ghostRemove l uuid)

/-- Example chunk for concrete instantiations. -/
def chunkEx1 : ChunkMeta := ⟨"u1#0", "u1", "Doc", "db", "text", 0⟩

/-- A store reached by one well-formed upsert on a fresh 2-dimensional store. -/
def storeEx1 : VectorStore :=
  (VectorStore.new 2 (some "gemini") (some "model") "t").upsertDocument
    "u1" "Doc" "2026-01-01" [chunkEx1] [[1, 2]]

/-- The ghost association list of `storeEx1`. -/
def ghostEx1 : List (ChunkMeta × List ℚ) := ghostUpsert [] "u1" [chunkEx1] [[1, 2]]

/-- The tracked invariant relating a store to its ghost association list. -/
def TrackOK (s : VectorStore) (l : List (ChunkMeta × List ℚ)) : Prop :=
  s.chunks = l.map Prod.fst ∧
  (∀ p ∈ l, (Prod.snd p).length = s.dimensions) ∧
  s.vectorsUsed = l.length * s.dimensions ∧
  s.vectorsUsed ≤ s.vectors.length ∧
  ∀ j, j < l.length → ∀ d, d < s.dimensions →
    getE s.vectors (j * s.dimensions + d) = getE (Prod.snd (l.getD j default)) d

-- ═══ store.ts: cosineSimilarity (idealized over ℝ) ═══

/-- The `dot` accumulator of `cosineSimilarity` in `store.ts`:
`Σ query[i] * stored[offset+i]` over `i < dims`. -/
noncomputable def dotAcc (query stored : List ℝ) (offset dims : ℕ) : ℝ :=
  Finset.sum (Finset.range dims) fun i => query.getD i 0 * stored.getD (offset + i) 0

/-- The `normQ` accumulator: `Σ query[i]^2` over `i < dims`. -/
noncomputable def normQAcc (query : List ℝ) (dims : ℕ) : ℝ :=
  Finset.sum (Finset.range dims) fun i => query.getD i 0 * query.getD i 0

/-- The `normS` accumulator: `Σ stored[offset+i]^2` over `i < dims`. -/
noncomputable def normSAcc (stored : List ℝ) (offset dims : ℕ) : ℝ :=
  Finset.sum (Finset.range dims) fun i => stored.getD (offset + i) 0 * stored.getD (offset + i) 0

/-- `cosineSimilarity` of `store.ts`, idealized over the reals: the guard
`denom === 0 ? 0 : dot / denom` makes the zero-norm case return `0` instead
of an undefined value. -/
noncomputable def cosineSimilarity (query stored : List ℝ) (offset dims : ℕ) : ℝ :=
  let denom := Real.sqrt (normQAcc query dims) * Real.sqrt (normSAcc stored offset dims)
  if denom = 0 then 0 else dotAcc query stored offset dims / denom

-- ═══ chunker.ts ═══

/-- `CHUNK_MAX_CHARS` of `chunker.ts`. -/
def CHUNK_MAX_CHARS : ℕ := 2000

/-- `OVERLAP_CHARS` of `chunker.ts`. -/
def OVERLAP_CHARS : ℕ := 400

/-- `MIN_CHUNK_CHARS` of `chunker.ts`. -/
def MIN_CHUNK_CHARS : ℕ := 100

/-- JS whitespace (the characters relevant to `trim` and `\s` here). -/
def isWS (c : Char) : Bool :=
  decide (c = ' ' ∨ c = '\t' ∨ c = '\n' ∨ c = '\r' ∨ c = Char.ofNat 11 ∨ c = Char.ofNat 12)

/-- JS `String.prototype.trim` on a character list. -/
def trimChars (l : List Char) : List Char :=
  ((l.dropWhile isWS).reverse.dropWhile isWS).reverse

/-- Index of the last newline in `w`, if any. -/
def lastNl (w : List Char) : Option ℕ :=
  w.enum.foldl (fun acc p => if p.2 = '\n' then some p.1 else acc) none

/-- Length of the `/\n\s*\n/` match starting at the head of `l`, if any: an
initial newline, then the greedy whitespace run up to and including its last
newline. -/
def sepLenAt (l : List Char) : Option ℕ :=
  match l with
  | [] => none
  | c :: rest =>
    if c = '\n' then
      match lastNl (rest.takeWhile isWS) with
      | some j => some (j + 2)
      | none => none
    else none

/-- `text.split(/\n\s*\n/)`: scan character by character, cutting at each
separator match.  Fuel is the remaining length — enough, since every step
consumes at least one character. -/
def splitParasGo : ℕ → List Char → List Char → List (List Char)
  | 0, l, cur => [cur.reverse ++ l]
  | fuel + 1, l, cur =>
    match l with
    | [] => [cur.reverse]
    | c :: rest =>
      match sepLenAt (c :: rest) with
      | some n => cur.reverse :: splitParasGo fuel ((c :: rest).drop n) []
      | none => splitParasGo fuel rest (c :: cur)

/-- The paragraph split `text.split(/\n\s*\n/)` of
`splitIntoParagraphChunks`. -/
def splitParas (l : List Char) : List (List Char) := splitParasGo l.length l []

/-- The sentence-ending class `[.!?。！？；\n]` of `splitBySentences`. -/
def isEnder (c : Char) : Bool :=
  decide (c = '.' ∨ c = '!' ∨ c = '?' ∨ c = '。' ∨ c = '！' ∨ c = '？' ∨ c = '；' ∨ c = '\n')

/-- The split `text.split(/(?<=[.!?。！？；\n])\s+/)` of `splitBySentences`:
cut at each maximal whitespace run whose preceding character is a sentence
ender (the run itself is consumed). -/
def splitSentsGo : ℕ → Bool → List Char → List Char → List (List Char)
  | 0, _, l, cur => [cur.reverse ++ l]
  | fuel + 1, prevEnder, l, cur =>
    match l with
    | [] => [cur.reverse]
    | c :: rest =>
      if prevEnder ∧ isWS c then
        cur.reverse ::
          splitSentsGo fuel false ((c :: rest).drop ((c :: rest).takeWhile isWS).length) []
      else splitSentsGo fuel (isEnder c) rest (c :: cur)

/-- The sentence split of `splitBySentences`. -/
def splitSents (l : List Char) : List (List Char) := splitSentsGo l.length false l []

/-- The character-boundary hard split of `splitBySentences`:
`for (i = 0; i < sent.length; i += CHUNK_MAX_CHARS) push(slice(i, i+MAX))`. -/
def hardSplitGo : ℕ → List Char → List (List Char)
  | 0, _ => []
  | _ + 1, [] => []
  | fuel + 1, c :: rest =>
    (c :: rest).take CHUNK_MAX_CHARS :: hardSplitGo fuel ((c :: rest).drop CHUNK_MAX_CHARS)

/-- The hard character split with its fuel instantiated. -/
def hardSplit (s : List Char) : List (List Char) := hardSplitGo s.length s

/-- The sentence-accumulation loop of `splitBySentences`: group sentences up
to `CHUNK_MAX_CHARS` (joined by single spaces), hard-splitting any single
over-long sentence.  JS string truthiness `if (current)` is emptiness. -/
def sentAccumGo : List (List Char) → List Char → List (List Char)
  | [], current => if current.isEmpty then [] else [current]
  | s :: rest, current =>
    if current.length + s.length + 1 ≤ CHUNK_MAX_CHARS then
      sentAccumGo rest (current ++ (if current.isEmpty then s else ' ' :: s))
    else
      (if current.isEmpty then [] else [current]) ++
        (if s.length > CHUNK_MAX_CHARS then hardSplit s ++ sentAccumGo rest []
         else sentAccumGo rest s)

/-- `splitBySentences` of `chunker.ts`. -/
def splitBySentences (text : List Char) : List (List Char) :=
  sentAccumGo (splitSents text) []

/-- The paragraph-accumulation loop of `splitIntoParagraphChunks`: merge
paragraphs (joined by blank lines) while the buffer stays within
`CHUNK_MAX_CHARS`; flush otherwise; over-long paragraphs go through the
sentence splitter. -/
def paraAccumGo : List (List Char) → List Char → List (List Char)
  | [], buffer => if buffer.isEmpty then [] else [buffer]
  | para :: rest, buffer =>
    let t := trimChars para
    if t.isEmpty then paraAccumGo rest buffer
    else if buffer.length + t.length + 2 ≤ CHUNK_MAX_CHARS then
      paraAccumGo rest (buffer ++ (if buffer.isEmpty then t else '\n' :: '\n' :: t))
    else
      (if buffer.isEmpty then [] else [buffer]) ++
        (if t.length > CHUNK_MAX_CHARS then splitBySentences t ++ paraAccumGo rest []
         else paraAccumGo rest t)

/-- `splitIntoParagraphChunks` of `chunker.ts`. -/
def splitIntoParagraphChunks (text : List Char) : List (List Char) :=
  paraAccumGo (splitParas text) []

/-- One overlap join of `applyOverlap`: prepend the last `OVERLAP_CHARS`
characters of the previous raw chunk, joined with a newline unless the tail
already ends in one, and cap the combined length at
`CHUNK_MAX_CHARS + OVERLAP_CHARS`. -/
def overlapJoin (prev cur : List Char) : List Char :=
  let prevTail := prev.drop (prev.length - OVERLAP_CHARS)
  let sep : List Char := if prevTail.getLast? = some '\n' then [] else ['\n']
  let combined := prevTail ++ sep ++ cur
  if combined.length > CHUNK_MAX_CHARS + OVERLAP_CHARS then
    combined.take (CHUNK_MAX_CHARS + OVERLAP_CHARS)
  else combined

/-- `applyOverlap` of `chunker.ts`. -/
def applyOverlap (raw : List (List Char)) : List (List Char) :=
  match raw with
  | [] => []
  | [x] => [x]
  | x :: rest => x :: (List.zip (x :: rest) rest).map (fun p => overlapJoin p.1 p.2)

/-- `DocumentInput` of `chunker.ts`, with content as a character list. -/
structure DocumentInput where
  uuid : String
  name : String
  database : String
  content : List Char
deriving DecidableEq, Repr

/-- `ChunkData` of `chunker.ts`. -/
structure ChunkData where
  id : String
  uuid : String
  docName : String
  database : String
  text : List Char
  chunkIndex : ℕ
deriving DecidableEq, Repr

/-- `chunkDocument` of `chunker.ts`: trim, paragraph-split, overlap, drop
short chunks, then assign contiguous zero-based chunk indices. -/
def chunkDocument (doc : DocumentInput) : List ChunkData :=
  let text := trimChars doc.content
  if text.length < MIN_CHUNK_CHARS then []
  else
    ((applyOverlap (splitIntoParagraphChunks text)).filter
        (fun t => decide (MIN_CHUNK_CHARS ≤ t.length))).enum.map
      (fun p => ⟨doc.uuid ++ "#" ++ toString p.1, doc.uuid, doc.name, doc.database, p.2, p.1⟩)

/-- A document that is one giant unbroken sentence of 4000 characters whose
final character is the only `'b'`. -/
def chunkDocCE : DocumentInput :=
  ⟨"u", "n", "d", List.replicate 3999 'a' ++ ['b']⟩

/-- A 100-character document (99 `'a'`s and a final `'b'`). -/
def chunkDocSmall : DocumentInput :=
  ⟨"u", "n", "d", List.replicate 99 'a' ++ ['b']⟩

-- ═══ embedder.ts: retry behaviour ═══

/-- Outcome of one network attempt of an embedding call.  The code
classifies an error as transient when its message contains `"429"`,
`"quota"`, `"rate"` or `"overloaded"`; the classification result is the
`rateLimited` flag. -/
inductive Attempt where
  | ok (vectors : List (List ℚ))
  | err (rateLimited : Bool)
deriving DecidableEq, Repr

/-- What an embedding call surfaces to its caller. -/
inductive CallResult where
  | success (vectors : List (List ℚ))
  | failure (rateLimited : Bool)
deriving DecidableEq, Repr

/-- The surfaced result together with the backoff delays (ms) slept between
attempts, in order, and the number of network attempts made. -/
structure RetryTrace where
  result : CallResult
  delays : List ℕ
  calls : ℕ
deriving DecidableEq, Repr

/-- `MAX_RETRIES` of `GeminiEmbedder.embedBatch`/`embedQuery`. -/
def GEMINI_MAX_RETRIES : ℕ := 3

/-- The `for (attempt = 0; attempt <= MAX_RETRIES; attempt++)` loop of
`GeminiEmbedder.embedBatch` (and, identically, `embedQuery`), iterating over
the remaining attempt indices: a rate-limited error with
`attempt < MAX_RETRIES` sleeps `1000 * 2^attempt` ms and retries; any other
error is rethrown at once.  The `[]` case is the `throw lastError` after the
loop, unreachable because the loop always exits from within. -/
def geminiRetryGo (attempts : ℕ → Attempt) : List ℕ → List ℕ → RetryTrace
  | [], delays => ⟨.failure true, delays.reverse, GEMINI_MAX_RETRIES + 1⟩
  | attempt :: restAttempts, delays =>
    match attempts attempt with
    | .ok v => ⟨.success v, delays.reverse, attempt + 1⟩
    | .err rl =>
      if attempt < GEMINI_MAX_RETRIES ∧ rl then
        geminiRetryGo attempts restAttempts (1000 * 2 ^ attempt :: delays)
      else ⟨.failure rl, delays.reverse, attempt + 1⟩

/-- `GeminiEmbedder.embedBatch` (and `embedQuery`) as a function of the
attempt outcomes: attempts `0..MAX_RETRIES`. -/
def geminiEmbedBatch (attempts : ℕ → Attempt) : RetryTrace :=
  geminiRetryGo attempts [0, 1, 2, 3] []

/-- `OpenAIEmbedder.embedBatch` (and `embedQuery`, which delegates to it):
a single call with no retry of any kind. -/
def openAIEmbedBatch (attempts : ℕ → Attempt) : RetryTrace :=
  match attempts 0 with
  | .ok v => ⟨.success v, [], 1⟩
  | .err rl => ⟨.failure rl, [], 1⟩

/-- A run whose first attempt hits a rate limit and whose second attempt
would succeed. -/
def attemptsEx : ℕ → Attempt :=
  fun n => if n = 0 then .err true else .ok [[1]]

-- ═══ index-manager.ts: the buildIndex event trace ═══

/-- `PROGRESS_INTERVAL` of `index-manager.ts`: log progress every N
documents (a progress message, not a save). -/
def PROGRESS_INTERVAL : ℕ := 10

/-- Observable events of a `buildIndex` run. -/
inductive BuildEvent where
  | upsertEv (uuid : String)
  | progressEv
  | saveEv
deriving DecidableEq, Repr

/-- How processing one document of the to-index set ends. -/
inductive DocOutcome where
  | skipped
  | failed
  | indexed (chunkCount : ℕ)
deriving DecidableEq, Repr

/-- The per-document loop of `buildIndex` (step 5) as the list of events it
emits: an upsert per successfully indexed document and a progress message
every `PROGRESS_INTERVAL` documents and on the last document — the loop body
contains no save.  `n` is the length of the to-index set and `i` the loop
index. -/
def buildLoopEvents (n : ℕ) : ℕ → List (String × DocOutcome) → List BuildEvent
  | _, [] => []
  | i, doc :: rest =>
    (match doc.2 with
     | .indexed _ =>
       BuildEvent.upsertEv doc.1 ::
         (if (i + 1) % PROGRESS_INTERVAL = 0 ∨ i = n - 1 then [BuildEvent.progressEv] else [])
     | .skipped => []
     | .failed => []) ++ buildLoopEvents n (i + 1) rest

/-- `buildIndex` steps 5–6 as an event trace: the per-document loop followed
by the single final `store.save()`; a run whose to-index set is empty
returns early without saving. -/
def buildIndexEvents (docs : List (String × DocOutcome)) : List BuildEvent :=
  if docs.length = 0 then []
  else buildLoopEvents docs.length 0 docs ++ [BuildEvent.saveEv]

/-- Recognize a save event. -/
def isSaveEv : BuildEvent → Bool
  | .saveEv => true
  | _ => false

/-- Ten documents, all of which index successfully. -/
def docsEx10 : List (String × DocOutcome) :=
  List.replicate 10 ("u", DocOutcome.indexed 1)

-- ═══ hybrid-search.ts ═══

/-- `HybridResult` of `hybrid-search.ts`, with scores as rationals and the
optional snippet as a character list. -/
structure HybridResult where
  uuid : String
  name : String
  database : String
  recordType : String
  score : ℚ
  matchedBy : List String
  semanticSnippet : Option (List Char)
deriving DecidableEq, Repr, Inhabited

/-- A raw result row of `dt.searchRecords` / `dt.getRelatedRecords`. -/
structure KWResult where
  uuid : String
  name : String
  score : ℚ
  recordType : String
  database : String
deriving DecidableEq, Repr, Inhabited

/-- A raw result row of `store.search` (the semantic path). -/
structure SemResult where
  uuid : String
  docName : String
  database : String
  text : List Char
  score : ℚ
deriving DecidableEq, Repr, Inhabited

/-- JS `results.get(uuid)` on the insertion-ordered map model. -/
def mapGet (m : List HybridResult) (u : String) : Option HybridResult :=
  m.find? (fun r => r.uuid == u)

/-- JS `results.set(uuid, r)` (and in-place mutation of a map entry):
replace in place when the key exists, append otherwise. -/
def mapSet (m : List HybridResult) (r : HybridResult) : List HybridResult :=
  if m.any (fun x => x.uuid == r.uuid) then
    m.map (fun x => if x.uuid == r.uuid then r else x)
  else m ++ [r]

/-- `normalizeKeywordScore` of `hybrid-search.ts`: clamp `score / 100`
into `[0, 1]`. -/
def normalizeKeywordScore (s : ℚ) : ℚ := min 1 (max 0 (s / 100))

/-- `normalizeRelatedScore` of `hybrid-search.ts`: clamp `score / 100`
into `[0, 1]`. -/
def normalizeRelatedScore (s : ℚ) : ℚ := min 1 (max 0 (s / 100))

/-- `normalizeSemanticScore` of `hybrid-search.ts`: remap `[0.4, 1.0]`
to `[0, 1]`, clamped. -/
def normalizeSemanticScore (s : ℚ) : ℚ := max 0 (min 1 ((s - 2/5) / (3/5)))

/-- The keyword-path loop of `hybridSearch`: each row is written into the
map at its uuid with its clamped score and the single tag `"keyword"`. -/
def applyKeyword (m : List HybridResult) : List KWResult → List HybridResult
  | [] => m
  | r :: rest => applyKeyword (mapSet m
      ⟨r.uuid, r.name, r.database, r.recordType,
       normalizeKeywordScore r.score, ["keyword"], none⟩) rest

/-- The semantic-path loop of `hybridSearch`: skip remapped scores below
`0.1`; boost an existing entry by half the remapped score, capped at `1`;
insert a new entry at `0.85` times the remapped score. -/
def applySem (m : List HybridResult) : List SemResult → List HybridResult
  | [] => m
  | sr :: rest =>
    if normalizeSemanticScore sr.score < 1/10 then applySem m rest
    else
      match mapGet m sr.uuid with
      | some ex => applySem (mapSet m
          { ex with
            score := min 1 (ex.score + normalizeSemanticScore sr.score * (1/2))
            matchedBy := ex.matchedBy ++ ["semantic"]
            semanticSnippet := some (sr.text.take 200) }) rest
      | none => applySem (mapSet m
          ⟨sr.uuid, sr.docName, sr.database, "",
           normalizeSemanticScore sr.score * (17/20), ["semantic"],
           some (sr.text.take 200)⟩) rest

/-- The See-Also loop of `hybridSearch`: skip the seed itself; boost an
existing entry by a fixed `0.15`, capped at `1`, tagging `"related"` at most
once; insert a new entry at `0.6` times the clamped score. -/
def applyRel (seedUuid : String) (m : List HybridResult) : List KWResult → List HybridResult
  | [] => m
  | r :: rest =>
    if r.uuid = seedUuid then applyRel seedUuid m rest
    else
      match mapGet m r.uuid with
      | some ex => applyRel seedUuid (mapSet m
          { ex with
            score := min 1 (ex.score + 3/20)
            matchedBy := if "related" ∈ ex.matchedBy then ex.matchedBy
                         else ex.matchedBy ++ ["related"] }) rest
      | none => applyRel seedUuid (mapSet m
          ⟨r.uuid, r.name, r.database, r.recordType,
           normalizeRelatedScore r.score * (3/5), ["related"], none⟩) rest

/-- The stable score-descending comparison used to pick the See-Also seed. -/
def scoreDesc (a b : HybridResult) : Prop := b.score ≤ a.score

instance : DecidableRel scoreDesc := fun a b => by
  unfold scoreDesc; infer_instance

/-- `sorted[0]` of the See-Also path: the first element of the stable
score-descending sort of the current map values. -/
def seedOf (m : List HybridResult) : HybridResult :=
  (m.insertionSort scoreDesc).headD default

/-- The final ranking comparison of `hybridSearch`: more matched paths
first, then higher score. -/
def rankRel (a b : HybridResult) : Prop :=
  b.matchedBy.length < a.matchedBy.length ∨
    (b.matchedBy.length = a.matchedBy.length ∧ b.score ≤ a.score)

instance : DecidableRel rankRel := fun a b => by
  unfold rankRel; infer_instance

instance : IsTotal HybridResult rankRel := ⟨by
  intro a b
  unfold rankRel
  rcases lt_trichotomy a.matchedBy.length b.matchedBy.length with h | h | h
  · exact Or.inr (Or.inl h)
  · rcases le_total b.score a.score with hs | hs
    · exact Or.inl (Or.inr ⟨h.symm, hs⟩)
    · exact Or.inr (Or.inr ⟨h, hs⟩)
  · exact Or.inl (Or.inl h)⟩

instance : IsTrans HybridResult rankRel := ⟨by
  intro a b c hab hbc
  unfold rankRel at hab hbc ⊢
  rcases hab with h1 | h1 <;> rcases hbc with h2 | h2
  · exact Or.inl (h2.trans h1)
  · exact Or.inl (by omega)
  · exact Or.inl (by omega)
  · exact Or.inr ⟨by omega, h2.2.trans h1.2⟩⟩

/-- The environment of one `hybridSearch` call: the outcome of each
fallible underlying call (`none` = the call threw and the local catch
swallowed it), the resolved option booleans, whether `getStore()` returns a
loaded store, and the requested `topK`. -/
structure HSInput where
  keywordOutcome : Option (List KWResult)
  enableSemantic : Bool
  storeAvailable : Bool
  semanticOutcome : Option (List SemResult)
  enableRelated : Bool
  relatedOutcome : String → Option (List KWResult)
  topKOpt : Option ℕ
deriving Inhabited

/-- `HybridSearchResponse` of `hybrid-search.ts`. -/
structure HSResponse where
  results : List HybridResult
  searchPaths : List String
  indexAvailable : Bool
deriving Repr, Inhabited

/-- `options.topK || 10` (JS `||`: both `undefined` and `0` fall back). -/
def effTopK : Option ℕ → ℕ
  | none => 10
  | some k => if k = 0 then 10 else k

/-- Path 1 of `hybridSearch`: the map and `searchPaths` after the keyword
path. -/
def hsAfterKeyword (inp : HSInput) : List HybridResult × List String :=
  match inp.keywordOutcome with
  | none => ([], [])
  | some krs => (applyKeyword [] krs, ["keyword"])

/-- Whether `store` is non-null in `hybridSearch`:
`options.enableSemantic !== false` and `getStore()` returns a store. -/
def hsStorePresent (inp : HSInput) : Bool :=
  inp.enableSemantic && inp.storeAvailable

/-- Paths 1–2 of `hybridSearch`: the map and `searchPaths` after the
semantic path. -/
def hsAfterSemantic (inp : HSInput) : List HybridResult × List String :=
  if hsStorePresent inp then
    match inp.semanticOutcome with
    | none => hsAfterKeyword inp
    | some srs => (applySem (hsAfterKeyword inp).1 srs,
        (hsAfterKeyword inp).2 ++ ["semantic"])
  else hsAfterKeyword inp

/-- Paths 1–3 of `hybridSearch`: the map and `searchPaths` after the
See-Also path, which runs only when enabled and the map is non-empty. -/
def hsAfterRelated (inp : HSInput) : List HybridResult × List String :=
  if inp.enableRelated && !(hsAfterSemantic inp).1.isEmpty then
    match inp.relatedOutcome (seedOf (hsAfterSemantic inp).1).uuid with
    | none => hsAfterSemantic inp
    | some rrs => (applyRel (seedOf (hsAfterSemantic inp).1).uuid
        (hsAfterSemantic inp).1 rrs, (hsAfterSemantic inp).2 ++ ["related"])
  else hsAfterSemantic inp

/-- `hybridSearch` of `hybrid-search.ts`: run the three paths, then sort by
(number of matched paths, score) descending and truncate to `topK`. -/
def hybridSearch (inp : HSInput) : HSResponse :=
  ⟨((hsAfterRelated inp).1.insertionSort rankRel).take (effTopK inp.topKOpt),
   (hsAfterRelated inp).2,
   hsStorePresent inp⟩

/-- An input whose keyword path returns a full-score hit on `"u"` and whose
semantic path returns a perfect-similarity hit on the same document. -/
def hsCEInput : HSInput :=
  ⟨some [⟨"u", "Doc", 100, "markdown", "db"⟩], true, true,
   some [⟨"u", "Doc", "db", ['t'], 1⟩], false, fun _ => none, some 5⟩

/-- An input for instantiating the fused-ranking theorem: two keyword hits,
one boosted by the semantic path, one new See-Also record, `topK = 5`. -/
def hsW4Input : HSInput :=
  ⟨some [⟨"u", "Doc", 80, "markdown", "db"⟩, ⟨"w", "Doc3", 40, "markdown", "db"⟩],
   true, true, some [⟨"u", "Doc", "db", ['t'], 9/10⟩], true,
   fun _ => some [⟨"v", "Doc2", 70, "markdown", "db"⟩], some 5⟩

-- ═══ Association-list lemmas ═══

theorem lookupDoc_insertDoc_self (l : List (String × DocEntry)) (k : String) (v : DocEntry) :
    lookupDoc (insertDoc l k v) k = some v := by
  induction l with
  | nil => simp [insertDoc, lookupDoc]
  | cons p rest ih =>
    by_cases h : p.1 = k
    · simp [insertDoc, lookupDoc, h]
    · simp [insertDoc, lookupDoc, h, ih]

theorem removeIndices_eq_nil_iff (s : VectorStore) (uuid : String) :
    removeIndices s uuid = [] ↔ ∀ c ∈ s.chunks, c.uuid ≠ uuid := by
  rw [removeIndices, List.filter_eq_nil_iff]
  constructor
  · intro h c hc
    obtain ⟨i, hi, rfl⟩ := List.mem_iff_getElem.1 hc
    have h2 := h i (List.mem_range.2 hi)
    rw [List.getD_eq_getElem s.chunks default hi] at h2
    simpa using h2
  · intro h i hi
    have hi' := List.mem_range.1 hi
    simp only [decide_eq_true_eq]
    rw [List.getD_eq_getElem s.chunks default hi']
    exact h _ (List.getElem_mem hi')

theorem removeDocument_eq_self (s : VectorStore) (uuid : String)
    (h : ∀ c ∈ s.chunks, c.uuid ≠ uuid) : s.removeDocument uuid = s := by
  rw [VectorStore.removeDocument, if_pos]
  rw [(removeIndices_eq_nil_iff s uuid).2 h]
  rfl

-- ═══ Buffer lemmas: set / writeRange / copyRange / compactGo / writeVecsGo ═══

theorem getE_set_self {buf : List ℚ} {i : ℕ} (h : i < buf.length) (v : ℚ) :
    getE (buf.set i v) i = v := by
  rw [getE, List.getD_eq_getElem?_getD, List.getElem?_set_self]
  · rfl
  · exact h

theorem getE_set_ne {buf : List ℚ} {i j : ℕ} (h : i ≠ j) (v : ℚ) :
    getE (buf.set i v) j = getE buf j := by
  rw [getE, getE, List.getD_eq_getElem?_getD, List.getD_eq_getElem?_getD,
    List.getElem?_set_ne h]

theorem getE_set (buf : List ℚ) (i j : ℕ) (v : ℚ) :
    getE (buf.set i v) j = if i = j ∧ i < buf.length then v else getE buf j := by
  by_cases hij : i = j
  · subst hij
    by_cases hlt : i < buf.length
    · rw [if_pos ⟨rfl, hlt⟩, getE_set_self hlt]
    · rw [if_neg (by tauto), List.set_eq_of_length_le (Nat.le_of_not_lt hlt)]
  · rw [if_neg (by tauto), getE_set_ne hij]

theorem writeRange_succ (f : ℕ → ℚ) (pos n : ℕ) (buf : List ℚ) :
    writeRange f pos (n + 1) buf = (writeRange f pos n buf).set (pos + n) (f n) := by
  simp only [writeRange, List.range_succ, List.foldl_append, List.foldl_cons, List.foldl_nil]

theorem length_writeRange (f : ℕ → ℚ) (pos n : ℕ) (buf : List ℚ) :
    (writeRange f pos n buf).length = buf.length := by
  induction n with
  | zero => rfl
  | succ n ih => rw [writeRange_succ, List.length_set, ih]

theorem getE_writeRange (f : ℕ → ℚ) (pos n : ℕ) (buf : List ℚ) (q : ℕ) :
    getE (writeRange f pos n buf) q =
      if pos ≤ q ∧ q < pos + n ∧ q < buf.length then f (q - pos) else getE buf q := by
  induction n with
  | zero =>
    rw [if_neg (by omega)]
    rfl
  | succ n ih =>
    rw [writeRange_succ, getE_set, length_writeRange, ih]
    by_cases hq : pos + n = q
    · subst hq
      by_cases hl : pos + n < buf.length
      · rw [if_pos ⟨rfl, hl⟩, if_pos (by omega)]
        congr 1
        omega
      · rw [if_neg (by omega), if_neg (by omega), if_neg (by omega)]
    · rw [if_neg (by omega)]
      by_cases hc : pos ≤ q ∧ q < pos + n ∧ q < buf.length
      · rw [if_pos hc, if_pos (by omega)]
      · rw [if_neg hc, if_neg (by omega)]

theorem copyRange_succ (srcPos dstPos n : ℕ) (buf : List ℚ) :
    copyRange srcPos dstPos (n + 1) buf =
      (copyRange srcPos dstPos n buf).set (dstPos + n)
        (getE (copyRange srcPos dstPos n buf) (srcPos + n)) := by
  simp only [copyRange, List.range_succ, List.foldl_append, List.foldl_cons, List.foldl_nil]

theorem length_copyRange (srcPos dstPos n : ℕ) (buf : List ℚ) :
    (copyRange srcPos dstPos n buf).length = buf.length := by
  induction n with
  | zero => rfl
  | succ n ih => rw [copyRange_succ, List.length_set, ih]

theorem getE_copyRange_out (srcPos dstPos n : ℕ) (buf : List ℚ) (q : ℕ)
    (h : q < dstPos ∨ dstPos + n ≤ q) :
    getE (copyRange srcPos dstPos n buf) q = getE buf q := by
  induction n with
  | zero => rfl
  | succ n ih =>
    rw [copyRange_succ, getE_set_ne (by omega)]
    exact ih (by omega)

theorem getE_copyRange_in (srcPos dstPos : ℕ) (buf : List ℚ) (q : ℕ) :
    ∀ n, dstPos + n ≤ srcPos → dstPos ≤ q → q < dstPos + n → q < buf.length →
      getE (copyRange srcPos dstPos n buf) q = getE buf (srcPos + (q - dstPos)) := by
  intro n
  induction n with
  | zero => omega
  | succ n ih =>
    intro hsep h1 h2 h3
    rw [copyRange_succ]
    by_cases hq : q = dstPos + n
    · subst hq
      rw [getE_set_self (by rw [length_copyRange]; exact h3)]
      rw [getE_copyRange_out srcPos dstPos n buf (srcPos + n) (by omega)]
      congr 1
      omega
    · rw [getE_set_ne (by omega)]
      exact ih (by omega) h1 (by omega) h3

theorem length_compactGo (dims : ℕ) (keep : List ℕ) : ∀ (w : ℕ) (buf : List ℚ),
    (compactGo dims w keep buf).length = buf.length := by
  induction keep with
  | nil => intro w buf; rfl
  | cons k rest ih =>
    intro w buf
    rw [compactGo, ih]
    by_cases h : k = w
    · rw [if_pos h]
    · rw [if_neg h, length_copyRange]

theorem getE_compactGo_lo (dims : ℕ) (keep : List ℕ) : ∀ (w : ℕ) (buf : List ℚ) (q : ℕ),
    q < w * dims → getE (compactGo dims w keep buf) q = getE buf q := by
  induction keep with
  | nil => intro w buf q _; rfl
  | cons k rest ih =>
    intro w buf q hq
    have hmul : (w + 1) * dims = w * dims + dims := by ring
    rw [compactGo, ih (w + 1) _ q (by omega)]
    by_cases h : k = w
    · rw [if_pos h]
    · rw [if_neg h]
      exact getE_copyRange_out _ _ _ _ _ (Or.inl hq)

theorem getE_compactGo_hit (dims : ℕ) (keep : List ℕ) :
    ∀ (w : ℕ) (buf : List ℚ),
      (∀ k ∈ keep, w ≤ k) → List.Pairwise (· < ·) keep →
      (∀ k ∈ keep, (k + 1) * dims ≤ buf.length) →
      ∀ j, j < keep.length → ∀ d, d < dims →
        getE (compactGo dims w keep buf) ((w + j) * dims + d) =
          getE buf ((keep.getD j 0) * dims + d) := by
  induction keep with
  | nil => intro w buf _ _ _ j hj; simp at hj
  | cons k rest ih =>
    intro w buf hw hpw hb j hj d hd
    have hwk : w ≤ k := hw k (List.mem_cons_self k rest)
    have hrest₁ : ∀ x ∈ rest, k < x := (List.pairwise_cons.1 hpw).1
    have hrest₂ : List.Pairwise (· < ·) rest := (List.pairwise_cons.1 hpw).2
    rw [compactGo]
    rcases j with _ | j
    · -- the head: the slice written at writePos = w comes from index k
      have e0 : (w + 0) * dims = w * dims := by ring
      have e1 : (w + 1) * dims = w * dims + dims := by ring
      rw [getE_compactGo_lo dims rest (w + 1) _ _ (by omega)]
      simp only [List.getD_cons_zero]
      by_cases hkw : k = w
      · rw [if_pos hkw, hkw, e0]
      · rw [if_neg hkw]
        have hklt : w < k := by omega
        have hsep : w * dims + dims ≤ k * dims := by
          have h1 : (w + 1) * dims ≤ k * dims := Nat.mul_le_mul_right dims (by omega)
          omega
        have hkb : (k + 1) * dims ≤ buf.length := hb k (List.mem_cons_self k rest)
        have ek : (k + 1) * dims = k * dims + dims := by ring
        rw [e0, getE_copyRange_in (k * dims) (w * dims) buf (w * dims + d) dims
          (by omega) (by omega) (by omega) (by omega)]
        congr 1
        omega
    · -- the tail: shift the write position by one
      have hw1 : ∀ x ∈ rest, w + 1 ≤ x := by
        intro x hx
        have := hrest₁ x hx
        omega
      have hb1 : ∀ x ∈ rest,
          (x + 1) * dims ≤
            (if k = w then buf else copyRange (k * dims) (w * dims) dims buf).length := by
        intro x hx
        by_cases hkw : k = w
        · rw [if_pos hkw]; exact hb x (List.mem_cons_of_mem _ hx)
        · rw [if_neg hkw, length_copyRange]; exact hb x (List.mem_cons_of_mem _ hx)
      have hj' : j < rest.length := by simpa using Nat.lt_of_succ_lt_succ (by simpa using hj)
      have hkey := ih (w + 1)
        (if k = w then buf else copyRange (k * dims) (w * dims) dims buf)
        hw1 hrest₂ hb1 j hj' d hd
      have e2 : (w + (j + 1)) = ((w + 1) + j) := by omega
      rw [e2, hkey]
      simp only [List.getD_cons_succ]
      have hmem : rest.getD j 0 ∈ rest := by
        rw [List.getD_eq_getElem rest 0 hj']
        exact List.getElem_mem hj'
      by_cases hkw : k = w
      · rw [if_pos hkw]
      · rw [if_neg hkw]
        apply getE_copyRange_out
        right
        have hx1 : w + 1 ≤ rest.getD j 0 := hw1 _ hmem
        have hx2 : (w + 1) * dims ≤ (rest.getD j 0) * dims :=
          Nat.mul_le_mul_right dims hx1
        have e3 : (w + 1) * dims = w * dims + dims := by ring
        omega

theorem length_writeVecsGo (dims used : ℕ) (vs : List (List ℚ)) :
    ∀ (i : ℕ) (buf : List ℚ), (writeVecsGo dims used i vs buf).length = buf.length := by
  induction vs with
  | nil => intro i buf; rfl
  | cons v rest ih => intro i buf; rw [writeVecsGo, ih, length_writeRange]

theorem getE_writeVecsGo_lo (dims used : ℕ) (vs : List (List ℚ)) :
    ∀ (i : ℕ) (buf : List ℚ) (q : ℕ), q < used + i * dims →
      getE (writeVecsGo dims used i vs buf) q = getE buf q := by
  induction vs with
  | nil => intro i buf q _; rfl
  | cons v rest ih =>
    intro i buf q hq
    have hmul : (i + 1) * dims = i * dims + dims := by ring
    rw [writeVecsGo, ih (i + 1) _ q (by omega), getE_writeRange, if_neg (by omega)]

theorem getE_writeVecsGo_hit (dims used : ℕ) (vs : List (List ℚ)) :
    ∀ (i : ℕ) (buf : List ℚ), used + (i + vs.length) * dims ≤ buf.length →
      ∀ j, j < vs.length → ∀ d, d < dims →
        getE (writeVecsGo dims used i vs buf) (used + (i + j) * dims + d) =
          getE (vs.getD j []) d := by
  induction vs with
  | nil => intro i buf _ j hj; simp at hj
  | cons v rest ih =>
    intro i buf hfit j hj d hd
    rw [writeVecsGo]
    rcases j with _ | j
    · have e0 : (i + 0) * dims = i * dims := by ring
      have e1 : (i + 1) * dims = i * dims + dims := by ring
      have efit : (i + (v :: rest).length) * dims =
          i * dims + dims + rest.length * dims := by
        simp only [List.length_cons]
        ring
      rw [getE_writeVecsGo_lo dims used rest (i + 1) _ _ (by omega)]
      rw [getE_writeRange, if_pos (by omega)]
      simp only [List.getD_cons_zero]
      congr 1
      omega
    · have efit : (i + (v :: rest).length) * dims = ((i + 1) + rest.length) * dims := by
        simp only [List.length_cons]
        ring
      have hkey := ih (i + 1) (writeRange (fun d => getE v d) (used + i * dims) dims buf)
        (by rw [length_writeRange]; omega) j (by simpa using Nat.lt_of_succ_lt_succ (by simpa using hj)) d hd
      have e2 : (i + (j + 1)) = ((i + 1) + j) := by omega
      rw [e2, hkey]
      simp only [List.getD_cons_succ]

-- ═══ Index/filter correspondence ═══

theorem filter_indices_map {α : Type} [Inhabited α] (l : List α) (p : α → Bool) :
    ((List.range l.length).filter (fun i => p (l.getD i default))).map
      (fun i => l.getD i default) = l.filter p := by
  induction l with
  | nil => rfl
  | cons a t ih =>
    rw [List.length_cons, List.range_succ_eq_map, List.filter_cons]
    rw [List.filter_map]
    by_cases hpa : p a
    · rw [if_pos (by simpa using hpa), List.map_cons, List.map_map]
      simp only [Function.comp_def, Nat.succ_eq_add_one, List.getD_cons_zero,
        List.getD_cons_succ]
      rw [List.filter_cons, if_pos (by simpa using hpa), ih]
    · rw [if_neg (by simpa using hpa), List.map_map]
      simp only [Function.comp_def, Nat.succ_eq_add_one, List.getD_cons_succ]
      rw [List.filter_cons, if_neg (by simpa using hpa), ih]

theorem getD_map_fst (l : List (ChunkMeta × List ℚ)) (i : ℕ) :
    (l.map Prod.fst).getD i default = (l.getD i default).1 := by
  induction l generalizing i with
  | nil => cases i <;> rfl
  | cons p t ih =>
    cases i with
    | zero => rfl
    | succ i => simpa [List.getD_cons_succ] using ih i

-- ═══ Preservation of the tracked invariant ═══

theorem dimensions_removeDocument (s : VectorStore) (uuid : String) :
    (s.removeDocument uuid).dimensions = s.dimensions := by
  rw [VectorStore.removeDocument]
  split <;> rfl

theorem trackOK_remove {s : VectorStore} {l : List (ChunkMeta × List ℚ)}
    (h : TrackOK s l) (uuid : String) :
    TrackOK (s.removeDocument uuid) (ghostRemove l uuid) := by
  obtain ⟨hchunks, hdims, hused, hcap, hvec⟩ := h
  have hnl : s.chunks.length = l.length := by rw [hchunks, List.length_map]
  by_cases hz : (removeIndices s uuid).length = 0
  · -- early return: no chunk matches, the ghost filter is the identity
    have hnil : removeIndices s uuid = [] := List.length_eq_zero.1 hz
    have habsent : ∀ c ∈ s.chunks, c.uuid ≠ uuid := (removeIndices_eq_nil_iff s uuid).1 hnil
    have hsame : s.removeDocument uuid = s := removeDocument_eq_self s uuid habsent
    have hgsame : ghostRemove l uuid = l := by
      rw [ghostRemove, List.filter_eq_self]
      intro p hp
      have : p.1 ∈ s.chunks := by rw [hchunks]; exact List.mem_map_of_mem Prod.fst hp
      simpa using habsent p.1 this
    rw [hsame, hgsame]
    exact ⟨hchunks, hdims, hused, hcap, hvec⟩
  · -- real removal
    have hne : ¬(removeIndices s uuid).length = 0 := hz
    have hF1 : keepIndices s uuid =
        (List.range l.length).filter (fun i => decide (¬ (l.getD i default).1.uuid = uuid)) := by
      rw [keepIndices, hchunks, List.length_map]
      exact List.filter_congr fun i _ => by rw [getD_map_fst]
    have hF2 : (keepIndices s uuid).map (fun i => l.getD i default) = ghostRemove l uuid := by
      rw [hF1, ghostRemove]
      exact filter_indices_map l (fun pr => decide (¬ pr.1.uuid = uuid))
    have hF3 : (keepIndices s uuid).length = (ghostRemove l uuid).length := by
      rw [← hF2, List.length_map]
    have hF4 : List.Pairwise (· < ·) (keepIndices s uuid) :=
      List.Pairwise.filter _ (List.pairwise_lt_range s.chunks.length)
    have hF5 : ∀ k ∈ keepIndices s uuid, k < l.length := by
      intro k hk
      have := List.mem_range.1 (List.mem_of_mem_filter hk)
      omega
    have hF6 : ∀ j, j < (keepIndices s uuid).length →
        (ghostRemove l uuid).getD j default =
          l.getD ((keepIndices s uuid).getD j 0) default := by
      intro j hj
      rw [← hF2]
      rw [List.getD_eq_getElem _ _ (by rw [List.length_map]; omega), List.getElem_map]
      rw [List.getD_eq_getElem (keepIndices s uuid) 0 hj]
    have hkeeplen : (keepIndices s uuid).length ≤ l.length := by
      have h1 : (keepIndices s uuid).length ≤ (List.range s.chunks.length).length :=
        List.length_filter_le _ _
      rw [List.length_range] at h1
      omega
    rw [VectorStore.removeDocument, if_neg hne]
    refine ⟨?_, ?_, ?_, ?_, ?_⟩
    · -- chunks
      show s.chunks.filter _ = _
      rw [hchunks, List.filter_map]
      rw [ghostRemove]
      congr 1
    · -- vector lengths
      intro p hp
      exact hdims p (List.mem_of_mem_filter hp)
    · -- used length
      show (keepIndices s uuid).length * s.dimensions = _
      rw [hF3]
    · -- capacity
      show (keepIndices s uuid).length * s.dimensions ≤
        (compactGo s.dimensions 0 (keepIndices s uuid) s.vectors).length
      rw [length_compactGo]
      calc (keepIndices s uuid).length * s.dimensions
          ≤ l.length * s.dimensions := Nat.mul_le_mul_right _ hkeeplen
        _ = s.vectorsUsed := hused.symm
        _ ≤ s.vectors.length := hcap
    · -- pointwise correspondence
      intro j hj d hd
      show getE (compactGo s.dimensions 0 (keepIndices s uuid) s.vectors)
        (j * s.dimensions + d) = _
      have hjk : j < (keepIndices s uuid).length := by omega
      have hb : ∀ k ∈ keepIndices s uuid, (k + 1) * s.dimensions ≤ s.vectors.length := by
        intro k hk
        have hk1 : k + 1 ≤ l.length := hF5 k hk
        calc (k + 1) * s.dimensions
            ≤ l.length * s.dimensions := Nat.mul_le_mul_right _ hk1
          _ = s.vectorsUsed := hused.symm
          _ ≤ s.vectors.length := hcap
      have e0 : j * s.dimensions = (0 + j) * s.dimensions := by ring
      rw [e0, getE_compactGo_hit s.dimensions (keepIndices s uuid) 0 s.vectors
        (fun k _ => Nat.zero_le k) hF4 hb j hjk d hd]
      have hkmem : (keepIndices s uuid).getD j 0 ∈ keepIndices s uuid := by
        rw [List.getD_eq_getElem _ _ hjk]
        exact List.getElem_mem hjk
      rw [hvec _ (hF5 _ hkmem) d hd, hF6 j hjk]

theorem getE_grownBuffer (s1 : VectorStore) (add : ℕ)
    (hk : s1.vectorsUsed ≤ s1.vectors.length) (q : ℕ) (hq : q < s1.vectorsUsed) :
    getE (grownBuffer s1 add) q = getE s1.vectors q := by
  rw [grownBuffer]
  split
  · rw [getE, getE, List.getD_eq_getElem?_getD, List.getD_eq_getElem?_getD,
      List.getElem?_append_left (by rw [List.length_take]; omega),
      List.getElem?_take_of_lt hq]
  · rfl

theorem length_grownBuffer (s1 : VectorStore) (add : ℕ)
    (hk : s1.vectorsUsed ≤ s1.vectors.length) :
    s1.vectorsUsed + add ≤ (grownBuffer s1 add).length := by
  rw [grownBuffer]
  split
  · rw [List.length_append, List.length_take, List.length_replicate]
    omega
  · omega

theorem trackOK_upsert {s : VectorStore} {l : List (ChunkMeta × List ℚ)}
    (h : TrackOK s l) (uuid name modificationDate : String)
    (cs : List ChunkMeta) (vs : List (List ℚ))
    (hlen : cs.length = vs.length) (hdim : ∀ v ∈ vs, v.length = s.dimensions) :
    TrackOK (s.upsertDocument uuid name modificationDate cs vs) (ghostUpsert l uuid cs vs) := by
  obtain ⟨hc1, hd1, hu1, hk1, hv1⟩ := trackOK_remove h uuid
  have hDeq : (s.removeDocument uuid).dimensions = s.dimensions :=
    dimensions_removeDocument s uuid
  have hdim1 : ∀ v ∈ vs, v.length = (s.removeDocument uuid).dimensions := by
    intro v hv; rw [hDeq]; exact hdim v hv
  rw [VectorStore.upsertDocument]
  set s1 := s.removeDocument uuid with hs1
  set l1 := ghostRemove l uuid with hl1
  set D := s1.dimensions with hD
  set add := vs.length * D with hadd
  have hziplen : (cs.zip vs).length = vs.length := by
    rw [List.length_zip, hlen, Nat.min_self]
  have hfit : s1.vectorsUsed + add ≤ (grownBuffer s1 add).length :=
    length_grownBuffer s1 add hk1
  have hgu : ghostUpsert l uuid cs vs = l1 ++ cs.zip vs := by
    rw [ghostUpsert, ← hl1]
  refine ⟨?_, ?_, ?_, ?_, ?_⟩
  · -- chunks
    show s1.chunks ++ cs = _
    rw [hgu, List.map_append, hc1, List.map_fst_zip cs vs (by omega)]
  · -- vector lengths
    intro p hp
    rw [hgu, List.mem_append] at hp
    rcases hp with hp | hp
    · exact hd1 p hp
    · exact hdim1 p.2 (List.of_mem_zip hp).2
  · -- used length
    show s1.vectorsUsed + add = (ghostUpsert l uuid cs vs).length * D
    rw [hgu, List.length_append, hziplen, hu1, hadd]
    ring
  · -- capacity
    show s1.vectorsUsed + add ≤ (writeVecsGo D s1.vectorsUsed 0 vs (grownBuffer s1 add)).length
    rw [length_writeVecsGo]
    exact hfit
  · -- pointwise correspondence
    intro j hj d hd
    replace hd : d < D := hd
    show getE (writeVecsGo D s1.vectorsUsed 0 vs (grownBuffer s1 add)) (j * D + d) =
      getE ((ghostUpsert l uuid cs vs).getD j default).2 d
    rw [hgu] at hj ⊢
    rw [List.length_append, hziplen] at hj
    by_cases hjlo : j < l1.length
    · -- inherited entries keep their slices
      have hpos : j * D + d < s1.vectorsUsed := by
        have e1 : (j + 1) * D = j * D + D := by ring
        have e2 : (j + 1) * D ≤ l1.length * D := Nat.mul_le_mul_right _ (by omega)
        omega
      have e3 : s1.vectorsUsed + 0 * D = s1.vectorsUsed := by ring
      rw [getE_writeVecsGo_lo D s1.vectorsUsed vs 0 _ _ (by omega)]
      rw [getE_grownBuffer s1 add hk1 _ hpos]
      rw [hv1 j (by omega) d hd]
      congr 2
      rw [List.getD_append _ _ _ _ hjlo]
    · -- new entries hold the supplied vectors
      obtain ⟨i, rfl⟩ : ∃ i, j = l1.length + i := ⟨j - l1.length, by omega⟩
      have hi : i < vs.length := by omega
      have epos : (l1.length + i) * D + d = s1.vectorsUsed + (0 + i) * D + d := by
        rw [hu1]
        ring
      rw [epos]
      have efit0 : s1.vectorsUsed + (0 + vs.length) * D ≤ (grownBuffer s1 add).length := by
        have e4 : (0 + vs.length) * D = add := by rw [hadd]; ring
        omega
      rw [getE_writeVecsGo_hit D s1.vectorsUsed vs 0 (grownBuffer s1 add) efit0 i hi d hd]
      congr 1
      rw [List.getD_append_right _ _ _ _ (by omega)]
      have hiz : l1.length + i - l1.length = i := by omega
      rw [hiz]
      have hizlt : i < (cs.zip vs).length := by omega
      rw [List.getD_eq_getElem _ _ hizlt, List.getElem_zip]
      rw [List.getD_eq_getElem _ _ (by omega : i < vs.length)]

theorem reaches_trackOK {s : VectorStore} {l : List (ChunkMeta × List ℚ)}
    (h : Reaches s l) : TrackOK s l := by
  induction h with
  | init dims p m now =>
    refine ⟨rfl, ?_, ?_, ?_, ?_⟩
    · intro p hp; simp at hp
    · simp [VectorStore.new]
    · simp [VectorStore.new]
    · intro j hj; simp at hj
  | upsert uuid name modificationDate cs vs h hlen hdim ih =>
    exact trackOK_upsert ih uuid name modificationDate cs vs hlen hdim
  | remove uuid h ih =>
    exact trackOK_remove ih uuid

-- ═══ C1: positional correspondence invariant ═══

/-- C1: in every store state reachable by well-formed `upsertDocument` and
`removeDocument` calls (one vector per chunk, every vector of length
`dimensions`), the used region of the vector buffer holds exactly
`chunks.length * dimensions` scalars, and the vector supplied together with
`chunks[i]` occupies the slice `[i*dimensions, (i+1)*dimensions)` of the used
region; the 1:1 positional correspondence is preserved by every mutating
call. -/
theorem vector_store_positional_invariant (s : VectorStore)
    (l : List (ChunkMeta × List ℚ)) (h : Reaches s l) :
    (s.vectors.take s.vectorsUsed).length = s.chunks.length * s.dimensions ∧
    s.chunks = l.map Prod.fst ∧
    ∀ i, i < s.chunks.length →
      ((s.vectors.take s.vectorsUsed).drop (i * s.dimensions)).take s.dimensions =
        (l.getD i default).2 := by
  obtain ⟨hchunks, hdims, hused, hcap, hvec⟩ := reaches_trackOK h
  have hnl : s.chunks.length = l.length := by rw [hchunks, List.length_map]
  refine ⟨?_, hchunks, ?_⟩
  · rw [List.length_take, hnl, hused]
    omega
  · intro i hi
    have hil : i < l.length := by omega
    have hslot : (i + 1) * s.dimensions ≤ l.length * s.dimensions :=
      Nat.mul_le_mul_right _ (by omega)
    have heslot : (i + 1) * s.dimensions = i * s.dimensions + s.dimensions := by ring
    have hveclen : ((l.getD i default).2).length = s.dimensions := by
      apply hdims
      rw [List.getD_eq_getElem _ _ hil]
      exact List.getElem_mem hil
    apply List.ext_getElem?
    intro d
    by_cases hd : d < s.dimensions
    · have hq1 : i * s.dimensions + d < s.vectorsUsed := by omega
      have hq2 : i * s.dimensions + d < s.vectors.length := by omega
      rw [List.getElem?_take_of_lt hd, List.getElem?_drop, List.getElem?_take_of_lt (by omega),
        (by omega : i * s.dimensions + d = i * s.dimensions + d)]
      have hv := hvec i hil d hd
      rw [getE, getE, List.getD_eq_getElem?_getD, List.getD_eq_getElem?_getD] at hv
      have hL : s.vectors[i * s.dimensions + d]? =
          some (s.vectors.get ⟨i * s.dimensions + d, hq2⟩) :=
        List.getElem?_eq_getElem hq2
      have hR : ((l.getD i default).2)[d]? =
          some (((l.getD i default).2).get ⟨d, by omega⟩) :=
        List.getElem?_eq_getElem (by omega)
      rw [hL, hR] at hv ⊢
      simp only [Option.getD_some] at hv
      rw [hv]
    · have hlen1 : (((s.vectors.take s.vectorsUsed).drop (i * s.dimensions)).take
          s.dimensions).length ≤ s.dimensions := by
        rw [List.length_take]
        omega
      rw [List.getElem?_eq_none (by omega), List.getElem?_eq_none (by omega)]

theorem vector_store_positional_invariant_witness :
    ((storeEx1.vectors.take storeEx1.vectorsUsed).drop (0 * storeEx1.dimensions)).take
      storeEx1.dimensions = [(1 : ℚ), 2] := by
  have h := vector_store_positional_invariant storeEx1 ghostEx1
    (by
      rw [storeEx1, ghostEx1]
      exact Reaches.upsert "u1" "Doc" "2026-01-01" [chunkEx1] [[1, 2]]
        (Reaches.init 2 (some "gemini") (some "model") "t") rfl (by decide))
  have h2 := h.2.2 0 (by decide)
  rw [show (ghostEx1.getD 0 default).2 = [(1 : ℚ), 2] from rfl] at h2
  exact h2

-- ═══ C10: removing an absent document is a no-op ═══

/-- C10: calling `removeDocument` with a `documentId` for which no chunks are
stored is a complete no-op — the chunk list, the vector buffer, its used
length and the metadata document map are all left exactly unchanged. -/
theorem removeDocument_absent_noop (s : VectorStore) (uuid : String)
    (h : ∀ c ∈ s.chunks, c.uuid ≠ uuid) : s.removeDocument uuid = s :=
  removeDocument_eq_self s uuid h

theorem removeDocument_absent_noop_witness :
    storeEx.removeDocument "nope" = storeEx :=
  removeDocument_absent_noop storeEx "nope" (by decide)

-- ═══ C8: save/load round trip ═══

/-- C8: for every store state, `save()` followed by `load()` on a fresh
`VectorStore` reproduces an index with the identical chunk list (hence the
identical chunk count), the identical metadata document map, the same
dimensionality, and a vector buffer that is a bit-exact copy of the used
region of the original buffer. -/
theorem save_load_roundtrip (s : VectorStore) (now : String) (d0 : ℕ)
    (p m : Option String) (t0 : String) :
    ((VectorStore.new d0 p m t0).loadFrom (s.save now)).chunks = s.chunks ∧
    ((VectorStore.new d0 p m t0).loadFrom (s.save now)).chunks.length = s.chunks.length ∧
    ((VectorStore.new d0 p m t0).loadFrom (s.save now)).meta.documents = s.meta.documents ∧
    ((VectorStore.new d0 p m t0).loadFrom (s.save now)).dimensions = s.dimensions ∧
    ((VectorStore.new d0 p m t0).loadFrom (s.save now)).vectors = s.vectors.take s.vectorsUsed ∧
    ((VectorStore.new d0 p m t0).loadFrom (s.save now)).vectorsUsed =
      (s.vectors.take s.vectorsUsed).length :=
  ⟨rfl, rfl, rfl, rfl, rfl, rfl⟩

-- ═══ C7: needsReindex ═══

/-- C7: `needsReindex(id, t)` is true iff `id` is absent from the metadata
document map or the stored modification date differs from `t`; consequently
it is false immediately after `upsertDocument` indexes `id` with date `t`,
and true after indexing `id` with any date `t2 ≠ t`. -/
theorem needsReindex_spec (s : VectorStore) (uuid t t2 name : String)
    (cs : List ChunkMeta) (vs : List (List ℚ)) (hne : t2 ≠ t) :
    (s.needsReindex uuid t = true ↔
      lookupDoc s.meta.documents uuid = none ∨
        ∃ d, lookupDoc s.meta.documents uuid = some d ∧ d.modificationDate ≠ t) ∧
    (s.upsertDocument uuid name t cs vs).needsReindex uuid t = false ∧
    (s.upsertDocument uuid name t cs vs).needsReindex uuid t2 = true := by
  refine ⟨?_, ?_, ?_⟩
  · rw [VectorStore.needsReindex]
    cases h : lookupDoc s.meta.documents uuid with
    | none => simp
    | some d => simp [h]
  · rw [VectorStore.needsReindex]
    have : lookupDoc (s.upsertDocument uuid name t cs vs).meta.documents uuid =
        some ⟨name, t, cs.length⟩ := lookupDoc_insertDoc_self _ uuid _
    rw [this]
    simp
  · rw [VectorStore.needsReindex]
    have : lookupDoc (s.upsertDocument uuid name t cs vs).meta.documents uuid =
        some ⟨name, t, cs.length⟩ := lookupDoc_insertDoc_self _ uuid _
    rw [this]
    simpa using fun h => hne h.symm

theorem needsReindex_spec_witness :
    (storeEx.upsertDocument "u2" "Doc Two" "2026-02-02"
        [⟨"u2#0", "u2", "Doc Two", "db", "text", 0⟩] [[3, 4]]).needsReindex "u2" "2026-02-02"
      = false :=
  (needsReindex_spec storeEx "u2" "2026-02-02" "other" "Doc Two"
      [⟨"u2#0", "u2", "Doc Two", "db", "text", 0⟩] [[3, 4]] (by decide)).2.1

-- ═══ C9: cosineSimilarity algebra ═══

theorem normSAcc_zero_offset (v : List ℝ) (dims : ℕ) :
    normSAcc v 0 dims = normQAcc v dims := by
  unfold normSAcc normQAcc
  exact Finset.sum_congr rfl fun i _ => by rw [Nat.zero_add]

theorem dotAcc_comm (v w : List ℝ) (dims : ℕ) :
    dotAcc v w 0 dims = dotAcc w v 0 dims := by
  unfold dotAcc
  refine Finset.sum_congr rfl fun i _ => ?_
  rw [show (0 + i : ℕ) = i from Nat.zero_add i]
  exact mul_comm _ _

theorem dotAcc_self (v : List ℝ) (dims : ℕ) :
    dotAcc v v 0 dims = normQAcc v dims := by
  unfold dotAcc normQAcc
  exact Finset.sum_congr rfl fun i _ => by rw [Nat.zero_add]

theorem normQAcc_nonneg (v : List ℝ) (dims : ℕ) : 0 ≤ normQAcc v dims :=
  Finset.sum_nonneg fun _ _ => mul_self_nonneg _

/-- C9: `cosineSimilarity` is symmetric in its two input vectors; it equals
`1` whenever a vector with a non-zero entry (within the scanned `dims`
entries) is compared with itself; and whenever either input vector has zero
norm the guard returns `0` — a well-defined number, never an undefined
value and never an error. -/
theorem cosineSimilarity_spec :
    (∀ (v w : List ℝ) (dims : ℕ),
      cosineSimilarity v w 0 dims = cosineSimilarity w v 0 dims) ∧
    (∀ (v : List ℝ) (dims : ℕ), (∃ i, i < dims ∧ v.getD i 0 ≠ 0) →
      cosineSimilarity v v 0 dims = 1) ∧
    (∀ (q s : List ℝ) (offset dims : ℕ),
      normQAcc q dims = 0 ∨ normSAcc s offset dims = 0 →
      cosineSimilarity q s offset dims = 0) := by
  refine ⟨?_, ?_, ?_⟩
  · intro v w dims
    simp only [cosineSimilarity, normSAcc_zero_offset, dotAcc_comm v w]
    rw [mul_comm (Real.sqrt (normQAcc v dims))]
  · intro v dims ⟨i, hi, hvi⟩
    have hpos : 0 < normQAcc v dims := by
      apply Finset.sum_pos'
      · intro j _
        exact mul_self_nonneg _
      · exact ⟨i, Finset.mem_range.2 hi, mul_self_pos.2 hvi⟩
    simp only [cosineSimilarity, normSAcc_zero_offset, dotAcc_self]
    rw [Real.mul_self_sqrt (le_of_lt hpos)]
    rw [if_neg (ne_of_gt hpos)]
    exact div_self (ne_of_gt hpos)
  · intro q s offset dims h
    simp only [cosineSimilarity]
    rcases h with h | h
    · rw [h, Real.sqrt_zero, zero_mul, if_pos rfl]
    · rw [h, Real.sqrt_zero, mul_zero, if_pos rfl]

theorem cosineSimilarity_spec_witness :
    cosineSimilarity [(1 : ℝ)] [(1 : ℝ)] 0 1 = 1 :=
  cosineSimilarity_spec.2.1 [(1 : ℝ)] 1 ⟨0, by norm_num, by norm_num [List.getD]⟩

-- ═══ C6: chunker ═══

theorem CHUNK_MAX_eq : CHUNK_MAX_CHARS = 2000 := rfl

theorem OVERLAP_eq : OVERLAP_CHARS = 400 := rfl

theorem MIN_CHUNK_eq : MIN_CHUNK_CHARS = 100 := rfl

theorem len_aab (n : ℕ) : (List.replicate n 'a' ++ ['b']).length = n + 1 := by
  rw [List.length_append, List.length_replicate, List.length_singleton]

theorem aab_ne_nil (n : ℕ) : List.replicate n 'a' ++ ['b'] ≠ [] := by
  intro hcon
  have h2 := congrArg List.length hcon
  rw [len_aab, List.length_nil] at h2
  omega

theorem rep_shift (m : ℕ) (cur : List Char) :
    List.replicate m 'a' ++ 'a' :: cur = 'a' :: (List.replicate m 'a' ++ cur) := by
  rw [← List.singleton_append, ← List.append_assoc, ← List.replicate_succ',
    List.replicate_succ, List.cons_append]

theorem dropWhile_cons_false (p : Char → Bool) (c : Char) (l : List Char)
    (h : p c = false) : (c :: l).dropWhile p = c :: l := by
  simp [List.dropWhile_cons, h]

/-- Trimming a run of `'a'`s ending in `'b'` is the identity. -/
theorem trimChars_aab (n : ℕ) :
    trimChars (List.replicate n 'a' ++ ['b']) = List.replicate n 'a' ++ ['b'] := by
  have hb : isWS 'b' = false := by decide
  have ha : isWS 'a' = false := by decide
  rw [trimChars]
  have h1 : (List.replicate n 'a' ++ ['b']).dropWhile isWS =
      List.replicate n 'a' ++ ['b'] := by
    cases n with
    | zero => simpa using dropWhile_cons_false isWS 'b' [] hb
    | succ m =>
      rw [List.replicate_succ, List.cons_append]
      exact dropWhile_cons_false isWS 'a' _ ha
  rw [h1, List.reverse_append, List.reverse_replicate]
  simp only [List.reverse_cons, List.reverse_nil, List.nil_append, List.singleton_append]
  rw [dropWhile_cons_false isWS 'b' _ hb, List.reverse_cons, List.reverse_replicate]

theorem sepLenAt_not_nl (c : Char) (rest : List Char) (h : ¬ c = '\n') :
    sepLenAt (c :: rest) = none := by
  rw [sepLenAt, if_neg h]

theorem splitParasGo_zero (l cur : List Char) :
    splitParasGo 0 l cur = [cur.reverse ++ l] := rfl

theorem splitParasGo_step_none (fuel : ℕ) (c : Char) (rest cur : List Char)
    (hf : fuel ≠ 0) (h : sepLenAt (c :: rest) = none) :
    splitParasGo fuel (c :: rest) cur = splitParasGo (fuel - 1) rest (c :: cur) := by
  cases fuel with
  | zero => exact absurd rfl hf
  | succ f =>
    rw [splitParasGo, h]
    rfl

/-- The paragraph scanner passes over a run of `'a'`s, accumulating it. -/
theorem splitParasGo_repa (rest : List Char) (n : ℕ) :
    ∀ (fuel : ℕ) (cur : List Char),
      splitParasGo (fuel + n) (List.replicate n 'a' ++ rest) cur =
        splitParasGo fuel rest (List.replicate n 'a' ++ cur) := by
  induction n with
  | zero => intro fuel cur; simp
  | succ m ih =>
    intro fuel cur
    rw [List.replicate_succ, List.cons_append]
    rw [splitParasGo_step_none (fuel + (m + 1)) 'a' _ cur (by omega)
      (sepLenAt_not_nl 'a' _ (by decide))]
    rw [show fuel + (m + 1) - 1 = fuel + m from by omega]
    rw [ih fuel ('a' :: cur)]
    rw [rep_shift, List.cons_append]

theorem splitParas_aab (n : ℕ) :
    splitParas (List.replicate n 'a' ++ ['b']) = [List.replicate n 'a' ++ ['b']] := by
  rw [splitParas, len_aab]
  rw [show n + 1 = 1 + n from by omega]
  rw [splitParasGo_repa ['b'] n 1 [], List.append_nil]
  rw [splitParasGo_step_none 1 'b' [] _ (by omega) (sepLenAt_not_nl 'b' [] (by decide))]
  rw [show (1 : ℕ) - 1 = 0 from rfl, splitParasGo_zero]
  rw [List.append_nil, List.reverse_cons, List.reverse_replicate]

theorem splitSentsGo_zero (pe : Bool) (l cur : List Char) :
    splitSentsGo 0 pe l cur = [cur.reverse ++ l] := rfl

theorem splitSentsGo_step (fuel : ℕ) (pe : Bool) (c : Char) (rest cur : List Char)
    (hf : fuel ≠ 0) (h : ¬(pe = true ∧ isWS c = true)) :
    splitSentsGo fuel pe (c :: rest) cur =
      splitSentsGo (fuel - 1) (isEnder c) rest (c :: cur) := by
  cases fuel with
  | zero => exact absurd rfl hf
  | succ f =>
    rw [splitSentsGo, if_neg h]
    rfl

/-- The sentence scanner passes over a run of `'a'`s, accumulating it. -/
theorem splitSentsGo_repa (rest : List Char) (n : ℕ) :
    ∀ (fuel : ℕ) (pe : Bool) (cur : List Char),
      splitSentsGo (fuel + n) pe (List.replicate n 'a' ++ rest) cur =
        splitSentsGo fuel (if n = 0 then pe else isEnder 'a') rest
          (List.replicate n 'a' ++ cur) := by
  induction n with
  | zero => intro fuel pe cur; simp
  | succ m ih =>
    intro fuel pe cur
    have haw : isWS 'a' = false := by decide
    rw [List.replicate_succ, List.cons_append]
    rw [splitSentsGo_step (fuel + (m + 1)) pe 'a' _ cur (by omega) (by simp [haw])]
    rw [show fuel + (m + 1) - 1 = fuel + m from by omega]
    rw [ih fuel (isEnder 'a') ('a' :: cur)]
    have e1 : (if m = 0 then isEnder 'a' else isEnder 'a') = isEnder 'a' := by
      split <;> rfl
    have e2 : (if m + 1 = 0 then pe else isEnder 'a') = isEnder 'a' := by simp
    rw [e1, e2, rep_shift, List.cons_append]

theorem splitSents_aab (n : ℕ) :
    splitSents (List.replicate n 'a' ++ ['b']) = [List.replicate n 'a' ++ ['b']] := by
  have hbw : isWS 'b' = false := by decide
  rw [splitSents, len_aab]
  rw [show n + 1 = 1 + n from by omega]
  rw [splitSentsGo_repa ['b'] n 1 false [], List.append_nil]
  rw [splitSentsGo_step 1 _ 'b' [] _ (by omega) (by simp [hbw])]
  rw [show (1 : ℕ) - 1 = 0 from rfl, splitSentsGo_zero]
  rw [List.append_nil, List.reverse_cons, List.reverse_replicate]

theorem hardSplitGo_nil (fuel : ℕ) : hardSplitGo fuel [] = [] := by
  cases fuel <;> rfl

theorem hardSplitGo_step (fuel : ℕ) (l : List Char) (hf : fuel ≠ 0) (h : l ≠ []) :
    hardSplitGo fuel l =
      l.take CHUNK_MAX_CHARS :: hardSplitGo (fuel - 1) (l.drop CHUNK_MAX_CHARS) := by
  cases fuel with
  | zero => exact absurd rfl hf
  | succ f =>
    cases l with
    | nil => exact absurd rfl h
    | cons c rest =>
      rw [hardSplitGo]
      rfl

theorem hardSplit_aab :
    hardSplit (List.replicate 3999 'a' ++ ['b']) =
      [List.replicate 2000 'a', List.replicate 1999 'a' ++ ['b']] := by
  have htake1 : (List.replicate 3999 'a' ++ ['b']).take CHUNK_MAX_CHARS =
      List.replicate 2000 'a' := by
    rw [List.take_append_eq_append_take, List.take_replicate, List.length_replicate,
      CHUNK_MAX_eq]
    rw [show min 2000 3999 = 2000 from by omega,
      show (2000 - 3999 : ℕ) = 0 from by omega, List.take_zero, List.append_nil]
  have hdrop1 : (List.replicate 3999 'a' ++ ['b']).drop CHUNK_MAX_CHARS =
      List.replicate 1999 'a' ++ ['b'] := by
    rw [List.drop_append_eq_append_drop, List.drop_replicate, List.length_replicate,
      CHUNK_MAX_eq]
    rw [show (3999 - 2000 : ℕ) = 1999 from by omega,
      show (2000 - 3999 : ℕ) = 0 from by omega, List.drop_zero]
  have htake2 : (List.replicate 1999 'a' ++ ['b']).take CHUNK_MAX_CHARS =
      List.replicate 1999 'a' ++ ['b'] := by
    apply List.take_of_length_le
    rw [len_aab, CHUNK_MAX_eq]
  have hdrop2 : (List.replicate 1999 'a' ++ ['b']).drop CHUNK_MAX_CHARS = [] := by
    apply List.drop_eq_nil_of_le
    rw [len_aab, CHUNK_MAX_eq]
  rw [hardSplit, len_aab]
  rw [hardSplitGo_step (3999 + 1) _ (by omega) (aab_ne_nil 3999), htake1, hdrop1]
  rw [hardSplitGo_step _ _ (by omega) (aab_ne_nil 1999), htake2, hdrop2]
  rw [hardSplitGo_nil]

theorem splitBySentences_aab :
    splitBySentences (List.replicate 3999 'a' ++ ['b']) =
      [List.replicate 2000 'a', List.replicate 1999 'a' ++ ['b']] := by
  rw [splitBySentences, splitSents_aab]
  rw [sentAccumGo]
  rw [if_neg (by
    have h0 := len_aab 3999
    have h1 := CHUNK_MAX_eq
    have h2 : ([] : List Char).length = 0 := rfl
    omega)]
  rw [if_pos (show ([] : List Char).isEmpty = true from rfl)]
  rw [if_pos (by
    have h0 := len_aab 3999
    have h1 := CHUNK_MAX_eq
    omega)]
  rw [hardSplit_aab]
  rw [show sentAccumGo [] [] = ([] : List (List Char)) from rfl]
  rw [List.append_nil, List.nil_append]

theorem splitIntoParagraphChunks_aab :
    splitIntoParagraphChunks (List.replicate 3999 'a' ++ ['b']) =
      [List.replicate 2000 'a', List.replicate 1999 'a' ++ ['b']] := by
  rw [splitIntoParagraphChunks, splitParas_aab]
  simp only [paraAccumGo, trimChars_aab]
  rw [if_neg (by rw [List.isEmpty_iff]; exact aab_ne_nil 3999)]
  rw [if_neg (by
    have h0 := len_aab 3999
    have h1 := CHUNK_MAX_eq
    have h2 : ([] : List Char).length = 0 := rfl
    omega)]
  rw [if_pos (show ([] : List Char).isEmpty = true from rfl)]
  rw [if_pos (by
    have h0 := len_aab 3999
    have h1 := CHUNK_MAX_eq
    omega)]
  rw [splitBySentences_aab]
  rw [List.nil_append, List.append_nil]

theorem applyOverlap_pair (x y : List Char) :
    applyOverlap [x, y] = [x, overlapJoin x y] := rfl

theorem overlapJoin_CE :
    overlapJoin (List.replicate 2000 'a') (List.replicate 1999 'a' ++ ['b']) =
      List.replicate 400 'a' ++ '\n' :: List.replicate 1999 'a' := by
  have hdropTail : (List.replicate 2000 'a').drop
      ((List.replicate 2000 'a').length - OVERLAP_CHARS) = List.replicate 400 'a' := by
    rw [List.length_replicate, OVERLAP_eq, show (2000 - 400 : ℕ) = 1600 from by omega,
      List.drop_replicate, show (2000 - 1600 : ℕ) = 400 from by omega]
  have h400 : List.replicate 400 'a' = List.replicate 399 'a' ++ ['a'] :=
    List.replicate_succ' 399 'a'
  have hlast : (List.replicate 400 'a').getLast? = some 'a' := by
    rw [h400, List.getLast?_concat]
  rw [overlapJoin]
  simp only [hdropTail, hlast]
  rw [if_neg (show ¬(some 'a' = some '\n') from by decide)]
  rw [if_pos (show (List.replicate 400 'a' ++ ['\n'] ++ (List.replicate 1999 'a' ++ ['b'])).length >
      CHUNK_MAX_CHARS + OVERLAP_CHARS from by
    have h0 : (List.replicate 400 'a' ++ ['\n'] ++ (List.replicate 1999 'a' ++ ['b'])).length =
        400 + 1 + (1999 + 1) := by
      rw [List.length_append, List.length_append, List.length_replicate,
        List.length_singleton, len_aab]
    have h1 := CHUNK_MAX_eq
    have h2 := OVERLAP_eq
    omega)]
  rw [List.append_assoc, List.singleton_append]
  rw [show CHUNK_MAX_CHARS + OVERLAP_CHARS = (List.replicate 400 'a').length + 2000 from by
    rw [CHUNK_MAX_eq, OVERLAP_eq, List.length_replicate]]
  rw [List.take_append]
  have htk : List.take 2000 ('\n' :: (List.replicate 1999 'a' ++ ['b'])) =
      '\n' :: List.replicate 1999 'a' := by
    rw [show (2000 : ℕ) = 1999 + 1 from rfl, List.take_succ_cons,
      List.take_append_eq_append_take, List.take_replicate, List.length_replicate,
      Nat.min_self, Nat.sub_self, List.take_zero, List.append_nil]
  rw [htk]

theorem enum_pair {α : Type} (x y : α) : ([x, y] : List α).enum = [(0, x), (1, y)] := rfl

/-- The chunker output on the giant-sentence counterexample document. -/
theorem chunkDocument_CE_eq :
    chunkDocument chunkDocCE =
      [⟨"u" ++ "#" ++ toString 0, "u", "n", "d", List.replicate 2000 'a', 0⟩,
       ⟨"u" ++ "#" ++ toString 1, "u", "n", "d",
        List.replicate 400 'a' ++ '\n' :: List.replicate 1999 'a', 1⟩] := by
  rw [chunkDocument]
  rw [show chunkDocCE.content = List.replicate 3999 'a' ++ ['b'] from rfl]
  rw [trimChars_aab]
  rw [if_neg (by rw [len_aab, MIN_CHUNK_eq]; omega)]
  rw [splitIntoParagraphChunks_aab, applyOverlap_pair, overlapJoin_CE]
  rw [List.filter_cons, List.filter_cons, List.filter_nil]
  rw [if_pos (by
    simp only [decide_eq_true_eq]
    rw [List.length_replicate, MIN_CHUNK_eq]
    omega)]
  rw [if_pos (by
    simp only [decide_eq_true_eq]
    rw [List.length_append, List.length_replicate, List.length_cons,
      List.length_replicate, MIN_CHUNK_eq]
    omega)]
  rw [enum_pair, List.map_cons, List.map_cons, List.map_nil]
  rfl

/-- C6 counterexample: a document that is one giant unbroken sentence of
4000 characters ending in its only `'b'` (trimmed length well above
`minChars`) is hard-split into two 2000-character raw chunks, both kept,
but the overlap cap at `CHUNK_MAX_CHARS + OVERLAP_CHARS` truncates the
second chunk's final character: no returned chunk contains `'b'`, so the
concatenation of the chunk texts does not cover the original content —
data is lost even though no chunk was dropped. -/
theorem chunk_coverage_counterexample :
    MIN_CHUNK_CHARS ≤ (trimChars chunkDocCE.content).length ∧
    'b' ∈ chunkDocCE.content ∧
    (chunkDocument chunkDocCE).length = 2 ∧
    ∀ c ∈ chunkDocument chunkDocCE, 'b' ∉ c.text := by
  refine ⟨?_, ?_, ?_, ?_⟩
  · rw [show chunkDocCE.content = List.replicate 3999 'a' ++ ['b'] from rfl,
      trimChars_aab, len_aab, MIN_CHUNK_eq]
    omega
  · rw [show chunkDocCE.content = List.replicate 3999 'a' ++ ['b'] from rfl]
    exact List.mem_append_right _ (List.mem_singleton_self 'b')
  · rw [chunkDocument_CE_eq]
    rfl
  · intro c hc
    rw [chunkDocument_CE_eq] at hc
    simp only [List.mem_cons, List.not_mem_nil, or_false] at hc
    rcases hc with rfl | rfl
    · intro hmem
      rw [List.mem_replicate] at hmem
      exact absurd hmem.2 (by decide)
    · intro hmem
      rw [List.mem_append, List.mem_cons, List.mem_replicate, List.mem_replicate] at hmem
      rcases hmem with h1 | h2 | h3
      · exact absurd h1.2 (by decide)
      · exact absurd h2 (by decide)
      · exact absurd h3.2 (by decide)

/-- C6 (amended): for every document whose trimmed text has length at least
`minChars`, `chunkDocument` returns chunks whose `chunkIndex` values are
exactly `0..n-1`, and every returned chunk is at least `minChars` long;
but the concatenation of the chunk texts need not cover the entire content:
the overlap cap at `maxChars + overlapChars` can truncate the tail of a
chunk (a giant unbroken sentence of 4000 characters loses its final
character), and chunks shorter than `minChars` after overlap are dropped. -/
theorem chunkDocument_spec (doc : DocumentInput)
    (h : MIN_CHUNK_CHARS ≤ (trimChars doc.content).length) :
    (chunkDocument doc).map (fun c => c.chunkIndex) =
      List.range (chunkDocument doc).length ∧
    ∀ c ∈ chunkDocument doc, MIN_CHUNK_CHARS ≤ c.text.length := by
  rw [chunkDocument]
  rw [if_neg (by omega)]
  constructor
  · rw [List.map_map, List.length_map]
    have hcomp : ((fun c : ChunkData => c.chunkIndex) ∘
        fun p : ℕ × List Char =>
          (⟨doc.uuid ++ "#" ++ toString p.1, doc.uuid, doc.name, doc.database, p.2, p.1⟩ :
            ChunkData)) = Prod.fst := by
      funext p
      rfl
    rw [hcomp, List.enum_map_fst, List.enum_length]
  · intro c hc
    obtain ⟨p, hp, rfl⟩ := List.mem_map.1 hc
    have hmem : p.2 ∈ (applyOverlap (splitIntoParagraphChunks (trimChars doc.content))).filter
        (fun t => decide (MIN_CHUNK_CHARS ≤ t.length)) :=
      List.snd_mem_of_mem_enum hp
    have := List.of_mem_filter hmem
    simpa using this

theorem chunkDocument_spec_witness :
    (chunkDocument chunkDocSmall).map (fun c => c.chunkIndex) =
      List.range (chunkDocument chunkDocSmall).length :=
  (chunkDocument_spec chunkDocSmall (by
    rw [show chunkDocSmall.content = List.replicate 99 'a' ++ ['b'] from rfl, trimChars_aab]
    have h0 := len_aab 99
    have h1 := MIN_CHUNK_eq
    omega)).1

-- ═══ C3: embedding retry behaviour ═══

/-- C3 counterexample: with a first attempt failing with a rate-limit error
and a second attempt that would succeed, the OpenAI provider surfaces the
transient failure after exactly one call, with no backoff delay and no
retry — while the Gemini provider retries and succeeds.  This refutes the
claim that every embedding call on every provider retries transient
errors. -/
theorem embed_retry_counterexample :
    openAIEmbedBatch attemptsEx = ⟨.failure true, [], 1⟩ ∧
    geminiEmbedBatch attemptsEx = ⟨.success [[1]], [1000], 2⟩ := by
  constructor <;> rfl

/-- C3 (amended): on the Gemini provider, every embedding call (`embedBatch`
and `embedQuery` share the loop verbatim) retries errors classified as
rate-limit/quota/rate/overload with exponential backoff `1000·2^attempt` ms
— the delay doubling on each attempt — up to `MAX_RETRIES = 3` retries
(4 attempts), surfacing the failure only after exhaustion, and propagates
every non-transient error immediately; the OpenAI provider performs no
retry at all: its single attempt's outcome is surfaced directly, with one
call and no delay. -/
theorem embed_retry_spec (attempts : ℕ → Attempt) (k : ℕ) (hk : k ≤ GEMINI_MAX_RETRIES)
    (hrl : ∀ j, j < k → attempts j = .err true) :
    (∀ v, attempts k = .ok v →
      geminiEmbedBatch attempts =
        ⟨.success v, (List.range k).map (fun j => 1000 * 2 ^ j), k + 1⟩) ∧
    (attempts k = .err false →
      geminiEmbedBatch attempts =
        ⟨.failure false, (List.range k).map (fun j => 1000 * 2 ^ j), k + 1⟩) ∧
    ((∀ j, j ≤ GEMINI_MAX_RETRIES → attempts j = .err true) →
      geminiEmbedBatch attempts = ⟨.failure true, [1000, 2000, 4000], 4⟩) ∧
    (openAIEmbedBatch attempts).calls = 1 ∧
    (openAIEmbedBatch attempts).delays = [] ∧
    (∀ rl, attempts 0 = .err rl → openAIEmbedBatch attempts = ⟨.failure rl, [], 1⟩) := by
  rw [GEMINI_MAX_RETRIES] at hk
  refine ⟨?_, ?_, ?_, ?_, ?_, ?_⟩
  · intro v hv
    interval_cases k
    · simp [geminiEmbedBatch, geminiRetryGo, hv]
    · have h0 := hrl 0 (by norm_num)
      simp [geminiEmbedBatch, geminiRetryGo, h0, hv, GEMINI_MAX_RETRIES, List.range_succ]
    · have h0 := hrl 0 (by norm_num)
      have h1 := hrl 1 (by norm_num)
      simp [geminiEmbedBatch, geminiRetryGo, h0, h1, hv, GEMINI_MAX_RETRIES, List.range_succ]
    · have h0 := hrl 0 (by norm_num)
      have h1 := hrl 1 (by norm_num)
      have h2 := hrl 2 (by norm_num)
      simp [geminiEmbedBatch, geminiRetryGo, h0, h1, h2, hv, GEMINI_MAX_RETRIES,
        List.range_succ]
  · intro hv
    interval_cases k
    · simp [geminiEmbedBatch, geminiRetryGo, hv, GEMINI_MAX_RETRIES]
    · have h0 := hrl 0 (by norm_num)
      simp [geminiEmbedBatch, geminiRetryGo, h0, hv, GEMINI_MAX_RETRIES, List.range_succ]
    · have h0 := hrl 0 (by norm_num)
      have h1 := hrl 1 (by norm_num)
      simp [geminiEmbedBatch, geminiRetryGo, h0, h1, hv, GEMINI_MAX_RETRIES, List.range_succ]
    · have h0 := hrl 0 (by norm_num)
      have h1 := hrl 1 (by norm_num)
      have h2 := hrl 2 (by norm_num)
      simp [geminiEmbedBatch, geminiRetryGo, h0, h1, h2, hv, GEMINI_MAX_RETRIES,
        List.range_succ]
  · intro hall
    have h0 := hall 0 (by decide)
    have h1 := hall 1 (by decide)
    have h2 := hall 2 (by decide)
    have h3 := hall 3 (by decide)
    simp [geminiEmbedBatch, geminiRetryGo, h0, h1, h2, h3, GEMINI_MAX_RETRIES]
  · rw [openAIEmbedBatch]
    cases attempts 0 <;> rfl
  · rw [openAIEmbedBatch]
    cases attempts 0 <;> rfl
  · intro rl hrl0
    rw [openAIEmbedBatch, hrl0]

theorem embed_retry_spec_witness :
    geminiEmbedBatch attemptsEx = ⟨.success [[1]], [1000], 2⟩ :=
  (embed_retry_spec attemptsEx 1 (by decide) (by decide)).1 [[1]] (by decide)

-- ═══ C2: buildIndex checkpointing ═══

theorem buildLoopEvents_no_save (n : ℕ) (docs : List (String × DocOutcome)) :
    ∀ i, (buildLoopEvents n i docs).countP isSaveEv = 0 := by
  induction docs with
  | nil => intro i; rfl
  | cons doc rest ih =>
    intro i
    obtain ⟨uuid, outcome⟩ := doc
    rw [buildLoopEvents, List.countP_append, ih]
    cases outcome with
    | indexed c =>
      simp only [Nat.add_zero]
      by_cases h : (i + 1) % PROGRESS_INTERVAL = 0 ∨ i = n - 1
      · rw [if_pos h]; rfl
      · rw [if_neg h]; rfl
    | skipped => rfl
    | failed => rfl

/-- C2 counterexample: a run that successfully indexes 10 documents (one
full `PROGRESS_INTERVAL` of 10) performs zero saves before the final one,
although the claim requires at least `⌊10/N⌋ ≥ 1` intermediate checkpoint
saves; the 10-document interval only emits a progress message.  No
checkpoint-interval configuration option exists in the code. -/
theorem buildIndex_checkpoint_counterexample :
    ((buildIndexEvents docsEx10).dropLast).countP isSaveEv = 0 ∧
    1 ≤ docsEx10.length / PROGRESS_INTERVAL ∧
    (buildIndexEvents docsEx10).countP isSaveEv = 1 := by
  refine ⟨by decide, by decide, by decide⟩

/-- C2 (amended): a `buildIndex` run whose to-index set is non-empty
performs no intermediate checkpoint save at all: the store is persisted
exactly once, by the final `store.save()`, which is the last event of the
run (every `PROGRESS_INTERVAL` documents only a progress message is
emitted); a run with an empty to-index set returns early without saving. -/
theorem buildIndex_single_final_save (docs : List (String × DocOutcome))
    (h : docs ≠ []) :
    (buildIndexEvents docs).countP isSaveEv = 1 ∧
    (buildIndexEvents docs).getLast? = some BuildEvent.saveEv ∧
    buildIndexEvents [] = [] := by
  have hlen : ¬ docs.length = 0 := by
    intro h0
    exact h (List.length_eq_zero.1 h0)
  refine ⟨?_, ?_, rfl⟩
  · rw [buildIndexEvents, if_neg hlen, List.countP_append, buildLoopEvents_no_save]
    rfl
  · rw [buildIndexEvents, if_neg hlen, List.getLast?_concat]

theorem buildIndex_single_final_save_witness :
    (buildIndexEvents docsEx10).countP isSaveEv = 1 :=
  (buildIndex_single_final_save docsEx10 (by decide)).1

-- ═══ C4/C5 helper lemmas: searchPaths membership ═══

theorem mem_hsAfterKeyword_snd (inp : HSInput) (p : String) :
    p ∈ (hsAfterKeyword inp).2 ↔ (p = "keyword" ∧ inp.keywordOutcome ≠ none) := by
  unfold hsAfterKeyword
  cases hko : inp.keywordOutcome with
  | none => simp
  | some krs => simp

theorem mem_hsAfterSemantic_snd (inp : HSInput) (p : String) :
    p ∈ (hsAfterSemantic inp).2 ↔
      (p ∈ (hsAfterKeyword inp).2 ∨
        (p = "semantic" ∧ hsStorePresent inp = true ∧ inp.semanticOutcome ≠ none)) := by
  unfold hsAfterSemantic
  by_cases hc : hsStorePresent inp = true
  · rw [if_pos hc]
    cases hso : inp.semanticOutcome with
    | none => simp [hc]
    | some srs => simp [hc, List.mem_append]
  · rw [if_neg hc]
    simp [hc]

theorem mem_hsAfterRelated_snd (inp : HSInput) (p : String) :
    p ∈ (hsAfterRelated inp).2 ↔
      (p ∈ (hsAfterSemantic inp).2 ∨
        (p = "related" ∧ (inp.enableRelated && !(hsAfterSemantic inp).1.isEmpty) = true ∧
          inp.relatedOutcome (seedOf (hsAfterSemantic inp).1).uuid ≠ none)) := by
  unfold hsAfterRelated
  by_cases hc : (inp.enableRelated && !(hsAfterSemantic inp).1.isEmpty) = true
  · rw [if_pos hc]
    cases hro : inp.relatedOutcome (seedOf (hsAfterSemantic inp).1).uuid with
    | none => simp [hc]
    | some rrs => simp [hc, List.mem_append]
  · rw [if_neg hc]
    simp [hc]

theorem applySem_skip (m : List HybridResult) (sr : SemResult) (rest : List SemResult)
    (h : normalizeSemanticScore sr.score < 1/10) :
    applySem m (sr :: rest) = applySem m rest := by
  simp only [applySem]
  rw [if_pos h]

theorem applySem_boost (m : List HybridResult) (sr : SemResult) (rest : List SemResult)
    (ex : HybridResult) (h : ¬ normalizeSemanticScore sr.score < 1/10)
    (hget : mapGet m sr.uuid = some ex) :
    applySem m (sr :: rest) = applySem (mapSet m
      { ex with
        score := min 1 (ex.score + normalizeSemanticScore sr.score * (1/2))
        matchedBy := ex.matchedBy ++ ["semantic"]
        semanticSnippet := some (sr.text.take 200) }) rest := by
  simp only [applySem]
  rw [if_neg h, hget]

theorem applySem_new (m : List HybridResult) (sr : SemResult) (rest : List SemResult)
    (h : ¬ normalizeSemanticScore sr.score < 1/10)
    (hget : mapGet m sr.uuid = none) :
    applySem m (sr :: rest) = applySem (mapSet m
      ⟨sr.uuid, sr.docName, sr.database, "",
       normalizeSemanticScore sr.score * (17/20), ["semantic"],
       some (sr.text.take 200)⟩) rest := by
  simp only [applySem]
  rw [if_neg h, hget]

theorem applyRel_boost (su : String) (m : List HybridResult) (r : KWResult)
    (rest : List KWResult) (ex : HybridResult)
    (h : ¬ r.uuid = su) (hget : mapGet m r.uuid = some ex) :
    applyRel su m (r :: rest) = applyRel su (mapSet m
      { ex with
        score := min 1 (ex.score + 3/20)
        matchedBy := if "related" ∈ ex.matchedBy then ex.matchedBy
                     else ex.matchedBy ++ ["related"] }) rest := by
  simp only [applyRel]
  rw [if_neg h, hget]

theorem applyRel_new (su : String) (m : List HybridResult) (r : KWResult)
    (rest : List KWResult) (h : ¬ r.uuid = su) (hget : mapGet m r.uuid = none) :
    applyRel su m (r :: rest) = applyRel su (mapSet m
      ⟨r.uuid, r.name, r.database, r.recordType,
       normalizeRelatedScore r.score * (3/5), ["related"], none⟩) rest := by
  simp only [applyRel]
  rw [if_neg h, hget]

-- ═══ C4: hybrid score fusion ═══

/-- C4 counterexample: on a document hit by both the keyword path (raw score
100, clamped to 1) and the semantic path (raw similarity 1, remapped to 1),
the fused score the claim prescribes — the keyword score plus half the
normalized semantic score, `1 + 1/2 = 3/2` — differs from what `hybridSearch`
actually returns: the boost is capped at 1 by `Math.min(1, …)`, a cap the
claim's fusion formula omits. -/
theorem hybrid_score_fusion_counterexample :
    (hybridSearch hsCEInput).results.map (fun r => r.score) = [1] ∧
    normalizeKeywordScore 100 + normalizeSemanticScore 1 * (1/2) = 3/2 ∧
    (3/2 : ℚ) ≠ 1 := by
  have hK : normalizeKeywordScore 100 = 1 := by
    rw [normalizeKeywordScore, show ((100 : ℚ) / 100) = 1 from by norm_num,
      max_eq_right (show (0 : ℚ) ≤ 1 from by norm_num), min_self]
  have hS : normalizeSemanticScore 1 = 1 := by
    rw [normalizeSemanticScore, show (((1 : ℚ) - 2/5) / (3/5)) = 1 from by norm_num,
      min_self, max_eq_right (show (0 : ℚ) ≤ 1 from by norm_num)]
  refine ⟨?_, by rw [hK, hS]; norm_num, by norm_num⟩
  have hns : ¬ normalizeSemanticScore (1 : ℚ) < 1/10 := by rw [hS]; norm_num
  have hstep : applySem [⟨"u", "Doc", "db", "markdown", normalizeKeywordScore 100,
      ["keyword"], none⟩] [⟨"u", "Doc", "db", ['t'], 1⟩] =
      [⟨"u", "Doc", "db", "markdown",
        min 1 (normalizeKeywordScore 100 + normalizeSemanticScore 1 * (1/2)),
        ["keyword", "semantic"], some ['t']⟩] := by
    rw [applySem_boost
      [⟨"u", "Doc", "db", "markdown", normalizeKeywordScore 100, ["keyword"], none⟩]
      ⟨"u", "Doc", "db", ['t'], 1⟩ []
      ⟨"u", "Doc", "db", "markdown", normalizeKeywordScore 100, ["keyword"], none⟩
      hns rfl]
    rfl
  have hcap : min 1 (normalizeKeywordScore 100 + normalizeSemanticScore 1 * (1/2)) = 1 := by
    rw [hK, hS, min_eq_left (show (1 : ℚ) ≤ 1 + 1 * (1/2) from by norm_num)]
  show List.map (fun r => r.score)
      (((hsAfterRelated hsCEInput).1.insertionSort rankRel).take
        (effTopK hsCEInput.topKOpt)) = [1]
  rw [show (hsAfterRelated hsCEInput).1 =
      applySem [⟨"u", "Doc", "db", "markdown", normalizeKeywordScore 100,
        ["keyword"], none⟩] [⟨"u", "Doc", "db", ['t'], 1⟩] from rfl, hstep]
  rw [show ((([⟨"u", "Doc", "db", "markdown",
      min 1 (normalizeKeywordScore 100 + normalizeSemanticScore 1 * (1/2)),
      ["keyword", "semantic"], some ['t']⟩] : List HybridResult).insertionSort
        rankRel).take (effTopK hsCEInput.topKOpt)) =
      [⟨"u", "Doc", "db", "markdown",
        min 1 (normalizeKeywordScore 100 + normalizeSemanticScore 1 * (1/2)),
        ["keyword", "semantic"], some ['t']⟩] from rfl]
  rw [List.map_cons, List.map_nil, hcap]

/-- C4 (amended): in `hybridSearch`, keyword- and related-path raw scores are
normalized by clamping `score / 100` into `[0, 1]` and semantic-path raw
scores by `clamp((score - 0.4) / 0.6, 0, 1)`; semantic rows whose remapped
score is below `0.1` are discarded; a document already in the merged map
gains half its remapped semantic score when the semantic path also matches
it and a fixed `0.15` when the related path also matches it, both boosts
capped at `1`; a document first contributed by the semantic path starts at
`0.85` times its remapped score and one first contributed by the related
path at `0.6` times its clamped score; the final result list is sorted by
number of matched paths descending, then score descending, and truncated to
the requested `topK`. -/
theorem hybrid_score_fusion_spec (inp : HSInput) (k : ℕ)
    (hk : inp.topKOpt = some k) (hk0 : 0 < k) :
    List.Sorted rankRel (hybridSearch inp).results ∧
    (hybridSearch inp).results.length ≤ k ∧
    (∀ s : ℚ, normalizeKeywordScore s = min 1 (max 0 (s / 100))) ∧
    (∀ s : ℚ, normalizeRelatedScore s = min 1 (max 0 (s / 100))) ∧
    (∀ s : ℚ, normalizeSemanticScore s = max 0 (min 1 ((s - 2/5) / (3/5)))) ∧
    (∀ (m : List HybridResult) (sr : SemResult) (rest : List SemResult),
        normalizeSemanticScore sr.score < 1/10 →
        applySem m (sr :: rest) = applySem m rest) ∧
    (∀ (m : List HybridResult) (sr : SemResult) (rest : List SemResult)
        (ex : HybridResult),
        ¬ normalizeSemanticScore sr.score < 1/10 →
        mapGet m sr.uuid = some ex →
        applySem m (sr :: rest) = applySem (mapSet m
          { ex with
            score := min 1 (ex.score + normalizeSemanticScore sr.score * (1/2))
            matchedBy := ex.matchedBy ++ ["semantic"]
            semanticSnippet := some (sr.text.take 200) }) rest) ∧
    (∀ (m : List HybridResult) (sr : SemResult) (rest : List SemResult),
        ¬ normalizeSemanticScore sr.score < 1/10 →
        mapGet m sr.uuid = none →
        applySem m (sr :: rest) = applySem (mapSet m
          ⟨sr.uuid, sr.docName, sr.database, "",
           normalizeSemanticScore sr.score * (17/20), ["semantic"],
           some (sr.text.take 200)⟩) rest) ∧
    (∀ (su : String) (m : List HybridResult) (r : KWResult) (rest : List KWResult)
        (ex : HybridResult),
        ¬ r.uuid = su → mapGet m r.uuid = some ex →
        applyRel su m (r :: rest) = applyRel su (mapSet m
          { ex with
            score := min 1 (ex.score + 3/20)
            matchedBy := if "related" ∈ ex.matchedBy then ex.matchedBy
                         else ex.matchedBy ++ ["related"] }) rest) ∧
    (∀ (su : String) (m : List HybridResult) (r : KWResult) (rest : List KWResult),
        ¬ r.uuid = su → mapGet m r.uuid = none →
        applyRel su m (r :: rest) = applyRel su (mapSet m
          ⟨r.uuid, r.name, r.database, r.recordType,
           normalizeRelatedScore r.score * (3/5), ["related"], none⟩) rest) := by
  have hek : effTopK inp.topKOpt = k := by
    rw [hk]
    show (if k = 0 then 10 else k) = k
    rw [if_neg (show ¬ k = 0 from by omega)]
  refine ⟨?_, ?_, fun s => rfl, fun s => rfl, fun s => rfl, ?_, ?_, ?_, ?_, ?_⟩
  · exact List.Pairwise.sublist (List.take_sublist _ _)
      (List.sorted_insertionSort rankRel (hsAfterRelated inp).1)
  · show (((hsAfterRelated inp).1.insertionSort rankRel).take
        (effTopK inp.topKOpt)).length ≤ k
    rw [hek, List.length_take]
    omega
  · exact applySem_skip
  · exact applySem_boost
  · exact applySem_new
  · exact applyRel_boost
  · exact applyRel_new

theorem hybrid_score_fusion_spec_witness :
    hsW4Input.topKOpt = some 5 ∧ 0 < 5 ∧
    List.Sorted rankRel (hybridSearch hsW4Input).results ∧
    (hybridSearch hsW4Input).results.length ≤ 5 :=
  ⟨rfl, by decide, (hybrid_score_fusion_spec hsW4Input 5 rfl (by decide)).1,
   (hybrid_score_fusion_spec hsW4Input 5 rfl (by decide)).2.1⟩

-- ═══ C5: graceful degradation ═══

/-- C5: `hybridSearch` is a total function of the outcomes of its underlying
calls — a path whose call throws is caught locally, contributes nothing and
is omitted from `searchPaths`, and the merged results of the paths that did
run are still returned.  `indexAvailable` is true exactly when the semantic
path is enabled and `getStore()` yields a store; with no store available,
`indexAvailable` is false and `searchPaths` contains at most `"keyword"` and
`"related"`; `"keyword"` is reported iff the keyword call returned an array;
a failed semantic call (or absent store) omits `"semantic"`; a failed
See-Also call omits `"related"`. -/
theorem hybrid_graceful_degradation (inp : HSInput) :
    (hybridSearch inp).indexAvailable = hsStorePresent inp ∧
    (inp.storeAvailable = false →
      (hybridSearch inp).indexAvailable = false ∧
      ∀ p ∈ (hybridSearch inp).searchPaths, p = "keyword" ∨ p = "related") ∧
    ("keyword" ∈ (hybridSearch inp).searchPaths ↔ inp.keywordOutcome ≠ none) ∧
    (inp.semanticOutcome = none → "semantic" ∉ (hybridSearch inp).searchPaths) ∧
    ((∀ u, inp.relatedOutcome u = none) → "related" ∉ (hybridSearch inp).searchPaths) ∧
    (hybridSearch inp).results =
      ((hsAfterRelated inp).1.insertionSort rankRel).take (effTopK inp.topKOpt) := by
  have hmem : ∀ p : String, p ∈ (hybridSearch inp).searchPaths ↔
      ((p = "keyword" ∧ inp.keywordOutcome ≠ none) ∨
       (p = "semantic" ∧ hsStorePresent inp = true ∧ inp.semanticOutcome ≠ none) ∨
       (p = "related" ∧ (inp.enableRelated && !(hsAfterSemantic inp).1.isEmpty) = true ∧
         inp.relatedOutcome (seedOf (hsAfterSemantic inp).1).uuid ≠ none)) := by
    intro p
    show p ∈ (hsAfterRelated inp).2 ↔ _
    rw [mem_hsAfterRelated_snd, mem_hsAfterSemantic_snd, mem_hsAfterKeyword_snd]
    tauto
  refine ⟨rfl, ?_, ?_, ?_, ?_, rfl⟩
  · intro h
    constructor
    · show hsStorePresent inp = false
      unfold hsStorePresent
      rw [h, Bool.and_false]
    · intro p hp
      rcases (hmem p).1 hp with ⟨hp1, _⟩ | ⟨hp1, hsp, _⟩ | ⟨hp1, _⟩
      · exact Or.inl hp1
      · exfalso
        unfold hsStorePresent at hsp
        rw [h, Bool.and_false] at hsp
        exact absurd hsp (by decide)
      · exact Or.inr hp1
  · constructor
    · intro hp
      rcases (hmem _).1 hp with ⟨_, h2⟩ | ⟨hp1, _⟩ | ⟨hp1, _⟩
      · exact h2
      · exact absurd hp1 (by decide)
      · exact absurd hp1 (by decide)
    · intro h2
      exact (hmem _).2 (Or.inl ⟨rfl, h2⟩)
  · intro h hp
    rcases (hmem _).1 hp with ⟨hp1, _⟩ | ⟨_, _, h2⟩ | ⟨hp1, _⟩
    · exact absurd hp1 (by decide)
    · exact h2 h
    · exact absurd hp1 (by decide)
  · intro hall hp
    rcases (hmem _).1 hp with ⟨hp1, _⟩ | ⟨hp1, _⟩ | ⟨_, _, h2⟩
    · exact absurd hp1 (by decide)
    · exact absurd hp1 (by decide)
    · exact h2 (hall _)

end DtAgent
